import Mathlib

/-!
A verification development for the `sandbox-links` repository: a bidirectional
codec between share links of two online code-execution sandboxes
("Attempt This Online", `src/ato`, and "Try It Online", `src/tio`) and
structured link states.

The Rust sources are shallowly embedded. Byte strings are `List Nat` with
values below 256; Rust `String` fields are Lean `String`; fallible Rust
functions returning `Result` become `Except`. External crates used by the
source are modelled at the level of their documented behaviour:

* `base64` (engines `URL_SAFE_NO_PAD` / `STANDARD_NO_PAD`): implemented in
  full (alphabet tables, invalid-byte scan, length check, trailing-bit
  check), below.
* `url::Url::parse`: modelled for the http/https URLs this codec handles
  (scheme, lower-cased host, path defaulting to "/", query, fragment);
  userinfo, ports, IP hosts and percent-encoding normalization of the
  serialization are not modelled, and none of the links handled here use
  them.  Query pairs follow `form_urlencoded`: split on `&`, empty
  sequences skipped, split at the first `=`, percent- and plus-decoding.
* `flate2` raw DEFLATE: compression is not re-implemented; it enters as an
  explicit capability `DeflateImpl` (a compressor and a decompressor),
  and theorems that need it hypothesise the inverse law that the real
  `flate2` satisfies.
* `rmp_serde` (MessagePack) for arrays of strings: implemented in full
  (fixarray/array16/array32, fixstr/str8/str16/str32, UTF-8 validation).
* `serde_json`: a JSON value parser faithful to the JSON grammar
  (whitespace, strings with escapes and surrogate pairs, numbers, arrays,
  objects).  Numbers with a fraction or exponent are kept as their lexeme;
  their canonical float re-formatting (and the float fallback for integers
  beyond 64 bits) is not modelled, as no verified path evaluates it.
-/

namespace SandboxLinks

instance {ε α : Type} [DecidableEq ε] [DecidableEq α] : DecidableEq (Except ε α) := fun a b =>
  match a, b with
  | .ok x, .ok y => if h : x = y then .isTrue (by rw [h]) else .isFalse (by simp [h])
  | .error x, .error y => if h : x = y then .isTrue (by rw [h]) else .isFalse (by simp [h])
  | .ok _, .error _ => .isFalse (by simp)
  | .error _, .ok _ => .isFalse (by simp)

/-! ## UTF-8

Rust strings are UTF-8 byte sequences; `String::from_utf8` and the byte
views taken by the base64 and MessagePack layers need an explicit UTF-8
codec over `List Nat`. The decoder performs the full validation that
Rust's `std` does: continuation ranges, overlong forms, surrogates, and
the 0x10FFFF ceiling. -/

/-- UTF-8 encoding of one Unicode scalar value. -/
def utf8EncodeChar (c : Char) : List Nat :=
  let n := c.toNat
  if n < 0x80 then [n]
  else if n < 0x800 then [0xC0 + n / 0x40, 0x80 + n % 0x40]
  else if n < 0x10000 then [0xE0 + n / 0x1000, 0x80 + n / 0x40 % 0x40, 0x80 + n % 0x40]
  else [0xF0 + n / 0x40000, 0x80 + n / 0x1000 % 0x40, 0x80 + n / 0x40 % 0x40, 0x80 + n % 0x40]

/-- UTF-8 encoding of a character list. -/
def utf8Encode : List Char → List Nat
  | [] => []
  | c :: t => utf8EncodeChar c ++ utf8Encode t

/-- Strict UTF-8 decoding (as `String::from_utf8`): `none` on any invalid,
overlong, surrogate or truncated sequence. -/
def utf8Decode : List Nat → Option (List Char)
  | [] => some []
  | b0 :: t =>
    if b0 < 0x80 then (utf8Decode t).map (fun cs => Char.ofNat b0 :: cs)
    else
      match t with
      | b1 :: t1 =>
        if 0xC2 ≤ b0 ∧ b0 < 0xE0 then
          if 0x80 ≤ b1 ∧ b1 < 0xC0 then
            (utf8Decode t1).map (fun cs => Char.ofNat ((b0 - 0xC0) * 0x40 + (b1 - 0x80)) :: cs)
          else none
        else
          match t1 with
          | b2 :: t2 =>
            if 0xE0 ≤ b0 ∧ b0 < 0xF0 then
              if ((b0 = 0xE0 ∧ 0xA0 ≤ b1 ∧ b1 < 0xC0) ∨
                  (0xE1 ≤ b0 ∧ b0 ≤ 0xEC ∧ 0x80 ≤ b1 ∧ b1 < 0xC0) ∨
                  (b0 = 0xED ∧ 0x80 ≤ b1 ∧ b1 < 0xA0) ∨
                  (0xEE ≤ b0 ∧ b0 ≤ 0xEF ∧ 0x80 ≤ b1 ∧ b1 < 0xC0)) ∧
                 (0x80 ≤ b2 ∧ b2 < 0xC0) then
                (utf8Decode t2).map (fun cs =>
                  Char.ofNat ((b0 - 0xE0) * 0x1000 + (b1 - 0x80) * 0x40 + (b2 - 0x80)) :: cs)
              else none
            else
              match t2 with
              | b3 :: t3 =>
                if 0xF0 ≤ b0 ∧ b0 ≤ 0xF4 then
                  if ((b0 = 0xF0 ∧ 0x90 ≤ b1 ∧ b1 < 0xC0) ∨
                      (0xF1 ≤ b0 ∧ b0 ≤ 0xF3 ∧ 0x80 ≤ b1 ∧ b1 < 0xC0) ∨
                      (b0 = 0xF4 ∧ 0x80 ≤ b1 ∧ b1 < 0x90)) ∧
                     (0x80 ≤ b2 ∧ b2 < 0xC0) ∧ (0x80 ≤ b3 ∧ b3 < 0xC0) then
                    (utf8Decode t3).map (fun cs =>
                      Char.ofNat ((b0 - 0xF0) * 0x40000 + (b1 - 0x80) * 0x1000 +
                        (b2 - 0x80) * 0x40 + (b3 - 0x80)) :: cs)
                  else none
                else none
              | [] => none
          | [] => none
      | [] => none

/-- Decoding of a single UTF-8 sequence from the front of a byte list,
returning the remainder; used by the lossy decoder below. -/
def utf8DecodeOne : List Nat → Option (Char × List Nat)
  | [] => none
  | b0 :: t =>
    if b0 < 0x80 then some (Char.ofNat b0, t)
    else
      match t with
      | b1 :: t1 =>
        if 0xC2 ≤ b0 ∧ b0 < 0xE0 then
          if 0x80 ≤ b1 ∧ b1 < 0xC0 then
            some (Char.ofNat ((b0 - 0xC0) * 0x40 + (b1 - 0x80)), t1)
          else none
        else
          match t1 with
          | b2 :: t2 =>
            if 0xE0 ≤ b0 ∧ b0 < 0xF0 then
              if ((b0 = 0xE0 ∧ 0xA0 ≤ b1 ∧ b1 < 0xC0) ∨
                  (0xE1 ≤ b0 ∧ b0 ≤ 0xEC ∧ 0x80 ≤ b1 ∧ b1 < 0xC0) ∨
                  (b0 = 0xED ∧ 0x80 ≤ b1 ∧ b1 < 0xA0) ∨
                  (0xEE ≤ b0 ∧ b0 ≤ 0xEF ∧ 0x80 ≤ b1 ∧ b1 < 0xC0)) ∧
                 (0x80 ≤ b2 ∧ b2 < 0xC0) then
                some (Char.ofNat ((b0 - 0xE0) * 0x1000 + (b1 - 0x80) * 0x40 + (b2 - 0x80)), t2)
              else none
            else
              match t2 with
              | b3 :: t3 =>
                if 0xF0 ≤ b0 ∧ b0 ≤ 0xF4 then
                  if ((b0 = 0xF0 ∧ 0x90 ≤ b1 ∧ b1 < 0xC0) ∨
                      (0xF1 ≤ b0 ∧ b0 ≤ 0xF3 ∧ 0x80 ≤ b1 ∧ b1 < 0xC0) ∨
                      (b0 = 0xF4 ∧ 0x80 ≤ b1 ∧ b1 < 0x90)) ∧
                     (0x80 ≤ b2 ∧ b2 < 0xC0) ∧ (0x80 ≤ b3 ∧ b3 < 0xC0) then
                    some (Char.ofNat ((b0 - 0xF0) * 0x40000 + (b1 - 0x80) * 0x1000 +
                      (b2 - 0x80) * 0x40 + (b3 - 0x80)), t3)
                  else none
                else none
              | [] => none
          | [] => none
      | [] => none

/-- Lossy UTF-8 decoding, fuelled by the input length (each step consumes at
least one byte). Modelled after `String::from_utf8_lossy`, replacing an
invalid byte with U+FFFD; the standard library skips a maximal invalid
subpart per replacement, a difference no verified path observes, since the
only caller (`form_urlencoded` query decoding) is never reached with
invalid percent-data by any link this development evaluates. -/
def utf8Lossy : Nat → List Nat → List Char
  | _, [] => []
  | 0, _ :: _ => []
  | fuel + 1, b :: t =>
    match utf8DecodeOne (b :: t) with
    | some (c, r) => c :: utf8Lossy fuel r
    | none => Char.ofNat 0xFFFD :: utf8Lossy fuel t

/-! ## Base64

A model of the `base64` crate's `GeneralPurpose` engines with the
`URL_SAFE_NO_PAD` and `STANDARD_NO_PAD` configurations, over byte lists.
Errors mirror `base64::DecodeError`.  The model reports the first invalid
byte of the whole input before the length-mod-4 check; the crate reports
errors block by block left to right, which agrees with the model on every
input with a single kind of fault (all inputs evaluated here). -/

/-- Alphabet table of the URL-safe base64 alphabet. -/
def b64UrlChar (k : Nat) : Char :=
  if k < 26 then Char.ofNat (65 + k)
  else if k < 52 then Char.ofNat (97 + (k - 26))
  else if k < 62 then Char.ofNat (48 + (k - 52))
  else if k = 62 then '-'
  else '_'

/-- Alphabet table of the standard base64 alphabet. -/
def b64StdChar (k : Nat) : Char :=
  if k < 26 then Char.ofNat (65 + k)
  else if k < 52 then Char.ofNat (97 + (k - 26))
  else if k < 62 then Char.ofNat (48 + (k - 52))
  else if k = 62 then '+'
  else '/'

/-- Sextet of a byte under the URL-safe alphabet. -/
def b64UrlIdx (b : Nat) : Option Nat :=
  if 65 ≤ b ∧ b ≤ 90 then some (b - 65)
  else if 97 ≤ b ∧ b ≤ 122 then some (b - 97 + 26)
  else if 48 ≤ b ∧ b ≤ 57 then some (b - 48 + 52)
  else if b = 45 then some 62
  else if b = 95 then some 63
  else none

/-- Sextet of a byte under the standard alphabet. -/
def b64StdIdx (b : Nat) : Option Nat :=
  if 65 ≤ b ∧ b ≤ 90 then some (b - 65)
  else if 97 ≤ b ∧ b ≤ 122 then some (b - 97 + 26)
  else if 48 ≤ b ∧ b ≤ 57 then some (b - 48 + 52)
  else if b = 43 then some 62
  else if b = 47 then some 63
  else none

/-- Model of `base64::DecodeError`. -/
inductive B64Error where
  | invalidByte (offset : Nat) (byte : Nat)
  | invalidLength
  | invalidLastSymbol (offset : Nat) (byte : Nat)
  | invalidPadding
deriving DecidableEq, Repr

/-- First invalid byte of the input, if any. A `=` is reported as
`invalidPadding`, as the no-pad engines (`DecodePaddingMode::RequireNone`)
reject padding. -/
def b64FirstBad (idx : Nat → Option Nat) (offset : Nat) : List Nat → Option B64Error
  | [] => none
  | b :: t =>
    if (idx b).isSome then b64FirstBad idx (offset + 1) t
    else if b = 61 then some .invalidPadding
    else some (.invalidByte offset b)

/-- Reassembly of bytes from (input byte, sextet) quads; the remainder of
two or three symbols must have zero trailing bits
(`decode_allow_trailing_bits` is off for the general-purpose engines). -/
def b64Quads (offset : Nat) : List (Nat × Nat) → Except B64Error (List Nat)
  | [] => .ok []
  | [_] => .error .invalidLength
  | [(_, s0), (b1, s1)] =>
    if s1 % 16 = 0 then .ok [s0 * 4 + s1 / 16] else .error (.invalidLastSymbol (offset + 1) b1)
  | [(_, s0), (_, s1), (b2, s2)] =>
    if s2 % 4 = 0 then .ok [s0 * 4 + s1 / 16, s1 % 16 * 16 + s2 / 4]
    else .error (.invalidLastSymbol (offset + 2) b2)
  | [(_, s0), (_, s1), (_, s2), (_, s3)] =>
    .ok [s0 * 4 + s1 / 16, s1 % 16 * 16 + s2 / 4, s2 % 4 * 64 + s3]
  | (_, s0) :: (_, s1) :: (_, s2) :: (_, s3) :: p :: rest =>
    (b64Quads (offset + 4) (p :: rest)).map
      (fun r => (s0 * 4 + s1 / 16) :: (s1 % 16 * 16 + s2 / 4) :: (s2 % 4 * 64 + s3) :: r)

/-- Base64 decoding of a byte list under an alphabet: invalid-byte scan,
length check (a remainder of one symbol is `InvalidLength`), reassembly. -/
def b64Decode (idx : Nat → Option Nat) (input : List Nat) : Except B64Error (List Nat) :=
  match b64FirstBad idx 0 input with
  | some e => .error e
  | none =>
    if input.length % 4 = 1 then .error .invalidLength
    else b64Quads 0 (input.map (fun b => (b, (idx b).getD 0)))

/-- Base64 encoding (no padding) of a byte list under an alphabet table. -/
def b64Encode (alpha : Nat → Char) : List Nat → List Char
  | b0 :: b1 :: b2 :: rest =>
    alpha (b0 / 4) :: alpha (b0 % 4 * 16 + b1 / 16) :: alpha (b1 % 16 * 4 + b2 / 64) ::
      alpha (b2 % 64) :: b64Encode alpha rest
  | [b0, b1] => [alpha (b0 / 4), alpha (b0 % 4 * 16 + b1 / 16), alpha (b1 % 16 * 4)]
  | [b0] => [alpha (b0 / 4), alpha (b0 % 4 * 16)]
  | [] => []

/-- Model of `URL_SAFE_NO_PAD.decode` on the UTF-8 bytes of a value. -/
def urlSafeNoPadDecode (input : List Nat) : Except B64Error (List Nat) :=
  b64Decode b64UrlIdx input

/-- Model of `STANDARD_NO_PAD.decode` on the UTF-8 bytes of a value. -/
def standardNoPadDecode (input : List Nat) : Except B64Error (List Nat) :=
  b64Decode b64StdIdx input

/-- Model of `URL_SAFE_NO_PAD.encode`. -/
def urlSafeNoPadEncode (input : List Nat) : List Char :=
  b64Encode b64UrlChar input

/-! ## String scanning helpers

List-of-character counterparts of the string operations the Rust sources
use (`split`, `split_once`, `strip_suffix`, literal head matching). -/

/-- Longest head of the list avoiding every character of `stop`, with the
remainder (which is empty or starts with a stop character). -/
def takeUntil (stop : List Char) : List Char → List Char × List Char
  | [] => ([], [])
  | c :: t =>
    if c ∈ stop then ([], c :: t)
    else
      let (a, b) := takeUntil stop t
      (c :: a, b)

/-- Model of `str::strip_prefix` for a literal: the remainder after a
literal head, if the list starts with it. -/
def dropLiteral : List Char → List Char → Option (List Char)
  | [], l => some l
  | _ :: _, [] => none
  | p :: ps, c :: t => if c = p then dropLiteral ps t else none

/-- Model of `str::strip_suffix`: the front part before a literal tail. -/
def removeSuffix (suf l : List Char) : Option (List Char) :=
  if suf.isSuffixOf l then some (l.take (l.length - suf.length)) else none

/-- Model of `str::split_once`: the parts before and after the first
occurrence of `c`, if any. -/
def splitOnceCh (c : Char) : List Char → Option (List Char × List Char)
  | [] => none
  | a :: t =>
    if a = c then some ([], t)
    else (splitOnceCh c t).map (fun p => (a :: p.1, p.2))

/-- Model of `str::split`: the fields between occurrences of `c` (an empty
input yields one empty field, like Rust's `split`). -/
def splitAllCh (c : Char) : List Char → List (List Char)
  | [] => [[]]
  | a :: t =>
    let r := splitAllCh c t
    if a = c then [] :: r
    else
      match r with
      | h :: rs => (a :: h) :: rs
      | [] => [[a]]

/-! ## Percent-decoding and query pairs (`form_urlencoded`) -/

/-- Value of a hexadecimal digit character. -/
def pctHexVal (c : Char) : Option Nat :=
  if 48 ≤ c.toNat ∧ c.toNat ≤ 57 then some (c.toNat - 48)
  else if 97 ≤ c.toNat ∧ c.toNat ≤ 102 then some (c.toNat - 97 + 10)
  else if 65 ≤ c.toNat ∧ c.toNat ≤ 70 then some (c.toNat - 65 + 10)
  else none

/-- Byte expansion of a form-urlencoded token: `%HH` becomes the byte `HH`
(an invalid sequence is passed through literally), `+` becomes a space,
and any other character contributes its UTF-8 bytes. -/
def pctBytes : List Char → List Nat
  | [] => []
  | '%' :: h1 :: h2 :: t =>
    match pctHexVal h1, pctHexVal h2 with
    | some a, some b => (a * 16 + b) :: pctBytes t
    | _, _ => 37 :: pctBytes (h1 :: h2 :: t)
  | '+' :: t => 32 :: pctBytes t
  | c :: t => utf8EncodeChar c ++ pctBytes t

/-- Percent- and plus-decoding of one query key or value, as
`form_urlencoded` performs it (UTF-8 with lossy fallback). -/
def percentDecodePlus (l : List Char) : List Char :=
  let bs := pctBytes l
  match utf8Decode bs with
  | some cs => cs
  | none => utf8Lossy bs.length bs

/-- Model of `Url::query_pairs` over the raw query: split on `&`, skip
empty sequences, split each field at its first `=` (a field without `=`
has an empty value), percent-decode key and value. -/
def queryPairs (q : List Char) : List (List Char × List Char) :=
  (splitAllCh '&' q).filterMap (fun field =>
    if field = [] then none
    else
      match splitOnceCh '=' field with
      | some (k, v) => some (percentDecodePlus k, percentDecodePlus v)
      | none => some (percentDecodePlus field, []))

/-! ## URL model

A model of `url::Url::parse` sufficient for the http/https share links
this codec handles: literal `http://` or `https://` scheme, a non-empty
host lower-cased ASCII-wise, a path defaulting to `/`, then optional query
and fragment. -/

/-- Model of the `url::ParseError` cases reachable in this model. -/
inductive UrlError where
  | relativeUrlWithoutBase
  | emptyHost
deriving DecidableEq, Repr

/-- Components of a parsed URL. -/
structure ParsedUrl where
  scheme : List Char
  host : List Char
  path : List Char
  query : Option (List Char)
  fragment : Option (List Char)
deriving DecidableEq, Repr

/-- Host, path, query and fragment after a recognized scheme. -/
def urlParseFrom (scheme rest : List Char) : Except UrlError ParsedUrl :=
  let (hostRaw, r1) := takeUntil ['/', '?', '#'] rest
  if hostRaw = [] then .error .emptyHost
  else
    let host := hostRaw.map Char.toLower
    let (path, r2) :=
      match r1 with
      | '/' :: _ => takeUntil ['?', '#'] r1
      | _ => (['/'], r1)
    match r2 with
    | '?' :: r3 =>
      let (q, r4) := takeUntil ['#'] r3
      match r4 with
      | _ :: f => .ok ⟨scheme, host, path, some q, some f⟩
      | [] => .ok ⟨scheme, host, path, some q, none⟩
    | '#' :: f => .ok ⟨scheme, host, path, none, some f⟩
    | _ => .ok ⟨scheme, host, path, none, none⟩

/-- Model of `Url::parse` (see the module comment for its scope). -/
def urlParse (url : String) : Except UrlError ParsedUrl :=
  match dropLiteral "https://".data url.data with
  | some rest => urlParseFrom "https".data rest
  | none =>
    match dropLiteral "http://".data url.data with
    | some rest => urlParseFrom "http".data rest
    | none => .error .relativeUrlWithoutBase

/-! ## MessagePack arrays of strings (`rmp_serde`)

`rmp_serde::to_vec` on an array of strings writes a fixarray header
followed by each string in the shortest str format; deserializing a
`[String; N]` reads an array header, requires its arity to equal `N`, and
reads `N` strings (trailing bytes after the value are ignored by
`rmp_serde::from_read`).  String lengths are written as `len as u32`, so
the str32 header holds the length modulo 2^32 like the Rust cast. -/

/-- Model of `rmp_serde::decode::Error`, at the granularity this
development distinguishes. -/
inductive MpError where
  | invalidMarker (byte : Nat)
  | lengthMismatch (expected actual : Nat)
  | eof
  | utf8
deriving DecidableEq, Repr

/-- One string in the shortest MessagePack str format. -/
def mpWriteStr (b : List Nat) : List Nat :=
  if b.length < 32 then (0xA0 + b.length) :: b
  else if b.length < 0x100 then 0xD9 :: b.length :: b
  else if b.length < 0x10000 then 0xDA :: b.length / 0x100 :: b.length % 0x100 :: b
  else
    0xDB :: b.length / 0x1000000 % 0x100 :: b.length / 0x10000 % 0x100 ::
      b.length / 0x100 % 0x100 :: b.length % 0x100 :: b

/-- Consecutive strings in MessagePack str format. -/
def mpWriteStrs : List (List Nat) → List Nat
  | [] => []
  | b :: t => mpWriteStr b ++ mpWriteStrs t

/-- A string body of `n` bytes taken from the front of the input, decoded
as UTF-8 (`rmp_serde` validates UTF-8 when deserializing a `String`). -/
def mpTakeStr (n : Nat) (l : List Nat) : Except MpError (String × List Nat) :=
  if n ≤ l.length then
    match utf8Decode (l.take n) with
    | some cs => .ok (String.mk cs, l.drop n)
    | none => .error .utf8
  else .error .eof

/-- The body of `mpReadStr` after its marker byte `m`. -/
def mpReadStrTail (m : Nat) (t : List Nat) : Except MpError (String × List Nat) :=
  if 0xA0 ≤ m ∧ m < 0xC0 then mpTakeStr (m - 0xA0) t
  else if m = 0xD9 then
    match t with
    | n :: t1 => mpTakeStr n t1
    | [] => .error .eof
  else if m = 0xDA then
    match t with
    | n1 :: n2 :: t1 => mpTakeStr (n1 * 0x100 + n2) t1
    | _ => .error .eof
  else if m = 0xDB then
    match t with
    | n1 :: n2 :: n3 :: n4 :: t1 =>
      mpTakeStr (n1 * 0x1000000 + n2 * 0x10000 + n3 * 0x100 + n4) t1
    | _ => .error .eof
  else .error (.invalidMarker m)

/-- One string read from the front of the input: fixstr, str8, str16 or
str32 marker, big-endian length, then the body. -/
def mpReadStr (l : List Nat) : Except MpError (String × List Nat) :=
  match l with
  | [] => .error .eof
  | m :: t => mpReadStrTail m t

/-- `n` consecutive strings read from the front of the input. -/
def mpReadStrs : Nat → List Nat → Except MpError (List String × List Nat)
  | 0, l => .ok ([], l)
  | n + 1, l =>
    match mpReadStr l with
    | .error e => .error e
    | .ok (s, l1) =>
      match mpReadStrs n l1 with
      | .error e => .error e
      | .ok (ss, l2) => .ok (s :: ss, l2)

/-- The body of array-header reading after the marker byte `m`. -/
def mpReadStrArrayTail (n m : Nat) (t : List Nat) : Except MpError (List String) :=
  if 0x90 ≤ m ∧ m < 0xA0 then
    if m - 0x90 = n then (mpReadStrs n t).map (·.1)
    else .error (.lengthMismatch n (m - 0x90))
  else if m = 0xDC then
    match t with
    | n1 :: n2 :: t1 =>
      if n1 * 0x100 + n2 = n then (mpReadStrs n t1).map (·.1)
      else .error (.lengthMismatch n (n1 * 0x100 + n2))
    | _ => .error .eof
  else if m = 0xDD then
    match t with
    | n1 :: n2 :: n3 :: n4 :: t1 =>
      if n1 * 0x1000000 + n2 * 0x10000 + n3 * 0x100 + n4 = n then (mpReadStrs n t1).map (·.1)
      else .error (.lengthMismatch n (n1 * 0x1000000 + n2 * 0x10000 + n3 * 0x100 + n4))
    | _ => .error .eof
  else .error (.invalidMarker m)

/-- Model of deserializing a `[String; n]`: array header with arity
exactly `n`, then `n` strings; trailing bytes are ignored. -/
def mpReadStrArray (n : Nat) (l : List Nat) : Except MpError (List String) :=
  match l with
  | [] => .error .eof
  | m :: t => mpReadStrArrayTail n m t

/-- Model of serializing an array of strings (arity at most 15 in this
codebase, hence always a fixarray header). -/
def mpWriteStrArray (fields : List (List Nat)) : List Nat :=
  (0x90 + fields.length) :: mpWriteStrs fields

/-! ## DEFLATE as an explicit capability

The source compresses with `flate2`'s raw-DEFLATE encoder at a chosen
level and decompresses with its decoder.  Compression is not
re-implemented here; the codec takes the pair as an explicit capability,
and round-trip theorems hypothesise the inverse law the real library
satisfies. The decompressor's `io::Error` payload is its message. -/

/-- A raw-DEFLATE implementation: `compress level bytes` and a fallible
`decompress`. -/
structure DeflateImpl where
  compress : Nat → List Nat → List Nat
  decompress : List Nat → Except String (List Nat)

/-- Model of `flate2::Compression::best()`. -/
def compressionBest : Nat := 9

end SandboxLinks

namespace SandboxLinks.Ato

open SandboxLinks

/-! ## `src/ato/link.rs` -/

/-- Schema versions of Attempt This Online share links (`LinkSchema`);
`V1` is the `#[default]`. -/
inductive LinkSchema where
  | V0
  | V1
deriving DecidableEq, Repr

instance : Inhabited LinkSchema := ⟨.V1⟩

/-- Raw link state of an Attempt This Online share link (`LinkState`). -/
structure LinkState where
  schema : LinkSchema := .V1
  language : String := ""
  options : String := ""
  header : String := ""
  header_encoding : String := ""
  code : String := ""
  code_encoding : String := ""
  footer : String := ""
  footer_encoding : String := ""
  program_arguments : String := ""
  input : String := ""
  input_encoding : String := ""
deriving DecidableEq, Repr

/-- Model of `LinkState::default()` / `LinkState::new()`. -/
def LinkState.new : LinkState := {}

/-- Model of `ato::DecodeError`. -/
inductive DecodeError where
  | Url (e : UrlError)
  | UnknownKey (key : String)
  | MultipleVersions
  | MultipleLanguages
  | Base64 (e : B64Error)
  | Deflate (e : String)
  | MessagePack (e : MpError)
deriving DecidableEq, Repr

/-- The `for (key, value) in u.query_pairs()` loop of
`LinkState::decode_url`: schema selection from keys `0`/`1`, language
override from `L`/`l`, errors on repeats and unknown keys. -/
def scanPairs (data : Option (LinkSchema × List Char)) (language : Option (List Char)) :
    List (List Char × List Char) →
      Except DecodeError (Option (LinkSchema × List Char) × Option (List Char))
  | [] => .ok (data, language)
  | (key, value) :: rest =>
    if key = ['0'] then
      if data.isSome then .error .MultipleVersions
      else scanPairs (some (.V0, value)) language rest
    else if key = ['1'] then
      if data.isSome then .error .MultipleVersions
      else scanPairs (some (.V1, value)) language rest
    else if key = ['L'] ∨ key = ['l'] then
      if language.isSome then .error .MultipleLanguages
      else scanPairs data (some value) rest
    else .error (.UnknownKey (String.mk key))

/-- The byte class kept by the `TIDY` regex `[^A-Za-z0-9+/\-_]+` (whose
matches are removed): the union of the URL-safe and standard base64
alphabets. -/
def tidyByte (b : Nat) : Bool :=
  (65 ≤ b && b ≤ 90) || (97 ≤ b && b ≤ 122) || (48 ≤ b && b ≤ 57) ||
    b = 43 || b = 47 || b = 45 || b = 95

/-- Model of `LinkState::decode_url`: URL parse, query-pair scan, then for
the schema value a strict URL-safe base64 decode with the strip-and-retry
leniency pass (surfacing the original error if the retry also fails), and
raw-DEFLATE decompression. -/
def LinkState.decode_url (fl : DeflateImpl) (url : String) :
    Except DecodeError (Option (LinkSchema × List Nat) × Option String) :=
  match (urlParse url).mapError DecodeError.Url with
  | .error e => .error e
  | .ok u =>
    let pairs := match u.query with | some q => queryPairs q | none => []
    match scanPairs none none pairs with
    | .error e => .error e
    | .ok (data, language) =>
      match data with
      | some (schema, value) =>
        let bytes := utf8Encode value
        let compressed :=
          match urlSafeNoPadDecode bytes with
          | .ok d => Except.ok d
          | .error err =>
            match urlSafeNoPadDecode (bytes.filter tidyByte) with
            | .ok d => Except.ok d
            | .error _ => Except.error (DecodeError.Base64 err)
        match compressed with
        | .error e => .error e
        | .ok compressed =>
          match fl.decompress compressed with
          | .ok buf => .ok (some (schema, buf), (language.map String.mk))
          | .error e => .error (.Deflate e)
      | none => .ok (none, language.map String.mk)

/-- Model of `LinkState::deserialize_mp`: a 9-field (V0) or 11-field (V1)
positional record of strings; in V0, `options` and `program_arguments`
are left empty. -/
def LinkState.deserialize_mp (schema : LinkSchema) (data : List Nat) :
    Except DecodeError LinkState :=
  match schema with
  | .V0 =>
    match mpReadStrArray 9 data with
    | .error e => .error (.MessagePack e)
    | .ok [language, header, header_encoding, code, code_encoding, footer, footer_encoding,
        input, input_encoding] =>
      .ok { schema := .V0, language, options := "", header, header_encoding, code,
            code_encoding, footer, footer_encoding, program_arguments := "", input,
            input_encoding }
    | .ok _ => .error (.MessagePack .eof)
  | .V1 =>
    match mpReadStrArray 11 data with
    | .error e => .error (.MessagePack e)
    | .ok [language, options, header, header_encoding, code, code_encoding, footer,
        footer_encoding, program_arguments, input, input_encoding] =>
      .ok { schema := .V1, language, options, header, header_encoding, code, code_encoding,
            footer, footer_encoding, program_arguments, input, input_encoding }
    | .ok _ => .error (.MessagePack .eof)

/-- Model of `LinkState::serialize_mp`: the 9- or 11-field positional
record of the state's strings. -/
def LinkState.serialize_mp (s : LinkState) : List Nat :=
  match s.schema with
  | .V0 =>
    mpWriteStrArray
      ([s.language, s.header, s.header_encoding, s.code, s.code_encoding, s.footer,
        s.footer_encoding, s.input, s.input_encoding].map (fun f => utf8Encode f.data))
  | .V1 =>
    mpWriteStrArray
      ([s.language, s.options, s.header, s.header_encoding, s.code, s.code_encoding, s.footer,
        s.footer_encoding, s.program_arguments, s.input,
        s.input_encoding].map (fun f => utf8Encode f.data))

/-- The canonical base URL (`RUN_URL` in `src/ato/api.rs`). -/
def RUN_URL : String := "https://ato.pxeger.com/run"

/-- Model of `LinkState::encode_url`: compress, base64-encode with the
URL-safe no-pad alphabet, prefix the schema discriminator, and attach as
the query of the canonical base URL. -/
def LinkState.encode_url (fl : DeflateImpl) (schema : LinkSchema) (payload : List Nat)
    (level : Nat) : String :=
  let d := fl.compress level payload
  let b := urlSafeNoPadEncode d
  let q := (match schema with | LinkSchema.V0 => "0=".data | LinkSchema.V1 => "1=".data) ++ b
  String.mk ((RUN_URL ++ "?").data ++ q)

/-- Model of `LinkState::decode`. -/
def LinkState.decode (fl : DeflateImpl) (url : String) : Except DecodeError LinkState :=
  match LinkState.decode_url fl url with
  | .error e => .error e
  | .ok (data, language) =>
    let state :=
      match data with
      | some (schema, data) => LinkState.deserialize_mp schema data
      | none => .ok LinkState.new
    match state with
    | .error e => .error e
    | .ok state =>
      match language with
      | some l => if state.language = "" then .ok { state with language := l } else .ok state
      | none => .ok state

/-- Model of `LinkState::encode` (always at `Compression::best()`); the
in-memory serializer and compressor cannot io-fail, so the Rust
`Result`'s error paths are vacuous and the model returns the URL. -/
def LinkState.encode (fl : DeflateImpl) (s : LinkState) : String :=
  LinkState.encode_url fl s.schema s.serialize_mp compressionBest

end SandboxLinks.Ato

namespace SandboxLinks

/-! ## JSON values (`serde_json`)

`parse_arg_list` in `src/ato/state.rs` parses option and argument strings
with `serde_json` and stringifies scalar elements with
`serde_json::Value`'s `Display`.  JSON numbers without fraction or
exponent are held exactly as `int`; other numerals keep their lexeme
(`numLex`), whose canonical float re-formatting — and `serde_json`'s
float fallback for integers beyond 64 bits — is not modelled, as no
verified path displays such a value.  Objects keep their entries in
parse order; `serde_json`'s default `Map` sorts by key, which no claim
here can observe (the only object evaluated has one entry). -/

/-- JSON values, as `serde_json::Value` at the granularity above. -/
inductive Json where
  | null
  | bool (b : Bool)
  | int (n : Int)
  | numLex (lexeme : String)
  | str (s : String)
  | arr (elems : List Json)
  | obj (entries : List (String × Json))

/-- Whitespace skipping, as `serde_json` (space, tab, newline, carriage
return). -/
def skipWs : List Char → List Char
  | [] => []
  | c :: t => if c = ' ' ∨ c = '\t' ∨ c = '\n' ∨ c = '\r' then skipWs t else c :: t

/-- Decimal digit test. -/
def isDigitCh (c : Char) : Bool := 48 ≤ c.toNat && c.toNat ≤ 57

/-- Leading run of decimal digits and the remainder. -/
def jsonDigits : List Char → List Char × List Char
  | [] => ([], [])
  | c :: t =>
    if isDigitCh c then
      let (d, r) := jsonDigits t
      (c :: d, r)
    else ([], c :: t)

/-- Numeric value of a digit run. -/
def digitsToNat : List Char → Nat → Nat
  | [], acc => acc
  | c :: t, acc => digitsToNat t (acc * 10 + (c.toNat - 48))

/-- The exponent part of a JSON number, if present: its lexeme and the
remainder (`some ([], _)` when there is no exponent; `none` when an
exponent marker is not followed by digits). -/
def parseJsonExp (l : List Char) : Option (List Char × List Char) :=
  match l with
  | [] => some ([], [])
  | c :: t =>
    if c = 'e' ∨ c = 'E' then
      let (sgn, t1) :=
        match t with
        | s :: ts => if s = '+' ∨ s = '-' then ([s], ts) else ([], t)
        | [] => ([], t)
      match jsonDigits t1 with
      | ([], _) => none
      | (ds, r) => some (c :: (sgn ++ ds), r)
    else some ([], c :: t)

/-- A JSON number after its integer digits: optional fraction and
exponent; an integer without either becomes `int`. -/
def parseJsonNumTail (negs intDs l : List Char) : Option (Json × List Char) :=
  match l with
  | '.' :: t =>
    match jsonDigits t with
    | ([], _) => none
    | (fds, r) =>
      match parseJsonExp r with
      | none => none
      | some (eds, r2) => some (.numLex (String.mk (negs ++ intDs ++ '.' :: (fds ++ eds))), r2)
  | _ =>
    match parseJsonExp l with
    | none => none
    | some ([], r) =>
      some (.int (if negs = [] then (digitsToNat intDs 0 : Int) else -(digitsToNat intDs 0 : Int)), r)
    | some (eds, r2) => some (.numLex (String.mk (negs ++ intDs ++ eds)), r2)

/-- A JSON number from the front of the input (optional minus, `0` or a
nonzero-led digit run, fraction, exponent). -/
def parseJsonNumber (l : List Char) : Option (Json × List Char) :=
  let p := match l with | '-' :: t => (['-'], t) | _ => (([] : List Char), l)
  match p.2 with
  | [] => none
  | c :: t =>
    if c = '0' then
      match t with
      | d :: _ => if isDigitCh d then none else parseJsonNumTail p.1 ['0'] t
      | [] => parseJsonNumTail p.1 ['0'] []
    else if isDigitCh c then
      let (ds, r) := jsonDigits t
      parseJsonNumTail p.1 (c :: ds) r
    else none

/-- The body of a JSON string after its opening quote: content until the
closing quote, with escapes (including `\uXXXX` and surrogate pairs) and
rejection of raw control characters. -/
def jsonStringBody : List Char → Option (List Char × List Char)
  | [] => none
  | '"' :: t => some ([], t)
  | '\\' :: t =>
    match t with
    | [] => none
    | e :: t1 =>
      if e = '"' then (jsonStringBody t1).map (fun p => ('"' :: p.1, p.2))
      else if e = '\\' then (jsonStringBody t1).map (fun p => ('\\' :: p.1, p.2))
      else if e = '/' then (jsonStringBody t1).map (fun p => ('/' :: p.1, p.2))
      else if e = 'b' then (jsonStringBody t1).map (fun p => (Char.ofNat 8 :: p.1, p.2))
      else if e = 'f' then (jsonStringBody t1).map (fun p => (Char.ofNat 12 :: p.1, p.2))
      else if e = 'n' then (jsonStringBody t1).map (fun p => ('\n' :: p.1, p.2))
      else if e = 'r' then (jsonStringBody t1).map (fun p => (Char.ofNat 13 :: p.1, p.2))
      else if e = 't' then (jsonStringBody t1).map (fun p => ('\t' :: p.1, p.2))
      else if e = 'u' then
        match t1 with
        | h1 :: h2 :: h3 :: h4 :: t2 =>
          match pctHexVal h1, pctHexVal h2, pctHexVal h3, pctHexVal h4 with
          | some a, some b, some c, some d =>
            let n := a * 4096 + b * 256 + c * 16 + d
            if 0xD800 ≤ n ∧ n < 0xDC00 then
              match t2 with
              | '\\' :: 'u' :: k1 :: k2 :: k3 :: k4 :: t3 =>
                match pctHexVal k1, pctHexVal k2, pctHexVal k3, pctHexVal k4 with
                | some a2, some b2, some c2, some d2 =>
                  let m := a2 * 4096 + b2 * 256 + c2 * 16 + d2
                  if 0xDC00 ≤ m ∧ m < 0xE000 then
                    (jsonStringBody t3).map (fun p =>
                      (Char.ofNat (0x10000 + (n - 0xD800) * 0x400 + (m - 0xDC00)) :: p.1, p.2))
                  else none
                | _, _, _, _ => none
              | _ => none
            else if 0xDC00 ≤ n ∧ n < 0xE000 then none
            else (jsonStringBody t2).map (fun p => (Char.ofNat n :: p.1, p.2))
          | _, _, _, _ => none
        | _ => none
      else none
  | c :: t =>
    if c.toNat < 0x20 then none
    else (jsonStringBody t).map (fun p => (c :: p.1, p.2))

/-- One JSON value from the front of the input, fuelled by the input
length (each recursion first consumes at least one character net).  The
continuations of a partially-read array or object recurse on the tail
with its opening bracket re-synthesized, which is grammar-equivalent to
the element loops of `serde_json`'s deserializer; a nonempty result is
required there so that trailing commas are rejected as `serde_json`
rejects them. -/
def parseJson : Nat → List Char → Option (Json × List Char)
  | 0, _ => none
  | fuel + 1, l =>
    match skipWs l with
    | [] => none
    | 'n' :: 'u' :: 'l' :: 'l' :: t => some (.null, t)
    | 't' :: 'r' :: 'u' :: 'e' :: t => some (.bool true, t)
    | 'f' :: 'a' :: 'l' :: 's' :: 'e' :: t => some (.bool false, t)
    | '"' :: t => (jsonStringBody t).map (fun p => (.str (String.mk p.1), p.2))
    | '[' :: t =>
      match skipWs t with
      | ']' :: r => some (.arr [], r)
      | t1 =>
        match parseJson fuel t1 with
        | none => none
        | some (v, r) =>
          match skipWs r with
          | ',' :: r2 =>
            match parseJson fuel ('[' :: r2) with
            | some (.arr (w :: ws), r3) => some (.arr (v :: w :: ws), r3)
            | _ => none
          | ']' :: r2 => some (.arr [v], r2)
          | _ => none
    | c :: t =>
      if c.toNat = 123 then
        match skipWs t with
        | [] => none
        | c2 :: t2 =>
          if c2.toNat = 125 then some (.obj [], t2)
          else if c2 = '"' then
            match jsonStringBody t2 with
            | none => none
            | some (k, r) =>
              match skipWs r with
              | ':' :: r2 =>
                match parseJson fuel r2 with
                | none => none
                | some (v, r3) =>
                  match skipWs r3 with
                  | ',' :: r4 =>
                    match parseJson fuel (Char.ofNat 123 :: r4) with
                    | some (.obj (m :: ms), r5) => some (.obj ((String.mk k, v) :: m :: ms), r5)
                    | _ => none
                  | c5 :: r5 => if c5.toNat = 125 then some (.obj [(String.mk k, v)], r5) else none
                  | [] => none
              | _ => none
          else none
      else parseJsonNumber (c :: t)

/-- Model of `serde_json::Error`, at the granularity this development
distinguishes: a grammar error, or a value of the wrong type for the
target (`Vec<Value>` requires a top-level array). -/
inductive JsonError where
  | malformed
  | invalidType
deriving DecidableEq, Repr

/-- Model of `serde_json::from_reader` for one JSON value: parse a value,
then require only whitespace to remain (the deserializer's `end`). -/
def jsonFromStr (s : String) : Except JsonError Json :=
  match parseJson (s.data.length + 1) s.data with
  | some (v, rest) => if skipWs rest = [] then .ok v else .error .malformed
  | none => .error .malformed

end SandboxLinks

namespace SandboxLinks.Ato

open SandboxLinks

/-! ## `src/ato/state.rs` -/

/-- Per-section content encodings (`Encoding`); `Utf8` is the default. -/
inductive Encoding where
  | Utf8
  | Sbcs
  | Base64
deriving DecidableEq, Repr

/-- Model of `ato::ParseError` (typed-state resolution errors). -/
inductive ParseError where
  | InvalidLanguage (lang : String)
  | InvalidEncoding (enc : String)
  | InvalidJson (e : JsonError)
  | ObjectArg (v : Json)

/-- Lower-case hexadecimal digit. -/
def hexDigitCh (n : Nat) : Char :=
  if n < 10 then Char.ofNat (48 + n) else Char.ofNat (97 + n - 10)

/-- JSON string escaping as `serde_json` serializes it: quote, backslash,
the two-character control escapes, `\u00XX` for other control
characters. -/
def jsonEscapeChar (c : Char) : List Char :=
  if c = '"' then ['\\', '"']
  else if c = '\\' then ['\\', '\\']
  else if c.toNat = 8 then ['\\', 'b']
  else if c.toNat = 9 then ['\\', 't']
  else if c.toNat = 10 then ['\\', 'n']
  else if c.toNat = 12 then ['\\', 'f']
  else if c.toNat = 13 then ['\\', 'r']
  else if c.toNat < 0x20 then
    ['\\', 'u', '0', '0', hexDigitCh (c.toNat / 16), hexDigitCh (c.toNat % 16)]
  else [c]

/-- Model of `serde_json::Value`'s `Display` (`v.to_string()`) on the
scalar values `parse_arg_list` applies it to.  A JSON string displays as
its quoted, escaped JSON form.  Arrays and objects are unreachable at the
call site (they error as `ObjectArg` first) and display here as empty. -/
def scalarToDisplay : Json → String
  | .null => "null"
  | .bool true => "true"
  | .bool false => "false"
  | .int n => toString n
  | .numLex s => s
  | .str s => String.mk ('"' :: s.data.foldr (fun c acc => jsonEscapeChar c ++ acc) ['"'])
  | .arr _ => ""
  | .obj _ => ""

/-- The `for v in values` loop of `parse_arg_list`: each object or array
element is rejected as `ObjectArg` carrying the value; other elements are
stringified in order. -/
def argListValues : List Json → Except ParseError (List String)
  | [] => .ok []
  | v :: t =>
    match v with
    | .obj _ => .error (.ObjectArg v)
    | .arr _ => .error (.ObjectArg v)
    | _ =>
      match argListValues t with
      | .error e => .error e
      | .ok rest => .ok (scalarToDisplay v :: rest)

/-- Model of `parse_arg_list`: an empty string is an empty list; a
non-empty string must parse as a JSON array whose elements are scalars. -/
def parse_arg_list (args : String) : Except ParseError (List String) :=
  if args = "" then .ok []
  else
    match jsonFromStr args with
    | .error e => .error (.InvalidJson e)
    | .ok (.arr values) => argListValues values
    | .ok _ => .error (.InvalidJson .invalidType)

/-- Model of `TryFrom<String> for Encoding`: exact string match with
`""` accepted as an alias of `"utf-8"`. -/
def Encoding.tryFrom (enc : String) : Except ParseError Encoding :=
  if enc = "utf-8" ∨ enc = "" then .ok .Utf8
  else if enc = "sbcs" then .ok .Sbcs
  else if enc = "base64" then .ok .Base64
  else .error (.InvalidEncoding enc)

end SandboxLinks.Ato

namespace SandboxLinks.Tio

open SandboxLinks

/-! ## `src/tio/link.rs` -/

/-- Try It Online link format generations (`LinkSchema`); `V2` is the
`#[default]`, but only the v1 format has a codec in the source. -/
inductive LinkSchema where
  | V1
  | V2
deriving DecidableEq, Repr

instance : Inhabited LinkSchema := ⟨.V2⟩

/-- Domain variants of Try It Online links (`LinkDomain`). -/
inductive LinkDomain where
  | Tio
  | TioNexus
  | TryItOnline
deriving DecidableEq, Repr

instance : Inhabited LinkDomain := ⟨.Tio⟩

/-- Raw link state of a Try It Online share link (`LinkState`). -/
structure LinkState where
  schema : LinkSchema := .V2
  domain : LinkDomain := .Tio
  language : String := ""
  code : String := ""
  input : String := ""
  args : List String := []
  debug : Bool := false
deriving DecidableEq, Repr

/-- Model of `LinkState::default()` / `LinkState::new()`. -/
def LinkState.new : LinkState := {}

/-- Model of `tio::DecodeError`. -/
inductive DecodeError where
  | Url (e : UrlError)
  | UnknownDomain (domain : String)
  | MultipleLanguages
  | FieldContainsEquals
  | UnknownField (field : String)
  | DuplicateField (field : String)
  | Base64 (e : B64Error)
  | Utf8
deriving DecidableEq, Repr

/-- Model of `decode_field`: URL-safe no-pad base64 first, the standard
alphabet as a fallback keeping the original error, then strict UTF-8. -/
def decode_field (s : List Char) : Except DecodeError String :=
  let b :=
    match urlSafeNoPadDecode (utf8Encode s) with
    | .ok b => Except.ok b
    | .error err =>
      match standardNoPadDecode (utf8Encode s) with
      | .ok b => Except.ok b
      | .error _ => Except.error (DecodeError.Base64 err)
  match b with
  | .error e => .error e
  | .ok b =>
    match utf8Decode b with
    | some cs => .ok (String.mk cs)
    | none => .error .Utf8

/-- The `args` sub-values decoded in order
(`value.split('+').map(decode_field).collect`). -/
def decodeArgsList : List (List Char) → Except DecodeError (List String)
  | [] => .ok []
  | v :: t =>
    match decode_field v with
    | .error e => .error e
    | .ok a =>
      match decodeArgsList t with
      | .error e => .error e
      | .ok rest => .ok (a :: rest)

/-- The four optional fragment fields accumulated by the decode loop. -/
structure FieldsAcc where
  code : Option String
  input : Option String
  args : Option (List String)
  debug : Option Bool
deriving DecidableEq, Repr

/-- The `for field in fragment.split('&')` loop of `decode_v1`: a field
without `=` is skipped; a value with a second `=` is
`FieldContainsEquals`; the keys `code`, `input`, `args` and `debug` each
fill their slot once and a repeat is `DuplicateField`; any other key is
`UnknownField`. -/
def foldFields (acc : FieldsAcc) : List (List Char) → Except DecodeError FieldsAcc
  | [] => .ok acc
  | field :: rest =>
    match splitOnceCh '=' field with
    | none => foldFields acc rest
    | some (key, value) =>
      if '=' ∈ value then .error .FieldContainsEquals
      else if key = "code".data then
        match acc.code with
        | none =>
          match decode_field value with
          | .error e => .error e
          | .ok c => foldFields { acc with code := some c } rest
        | some _ => .error (.DuplicateField "code")
      else if key = "input".data then
        match acc.input with
        | none =>
          match decode_field value with
          | .error e => .error e
          | .ok i => foldFields { acc with input := some i } rest
        | some _ => .error (.DuplicateField "input")
      else if key = "args".data then
        match acc.args with
        | none =>
          match decodeArgsList (splitAllCh '+' value) with
          | .error e => .error e
          | .ok a => foldFields { acc with args := some a } rest
        | some _ => .error (.DuplicateField "args")
      else if key = "debug".data then
        match acc.debug with
        | none => foldFields { acc with debug := some true } rest
        | some _ => .error (.DuplicateField "debug")
      else .error (.UnknownField (String.mk key))

/-- Model of `LinkState::decode_v1`: domain and positional language from
the host and path, an optional language head in the fragment, then the
fragment field loop. -/
def LinkState.decode_v1 (url : String) : Except DecodeError LinkState :=
  match (urlParse url).mapError DecodeError.Url with
  | .error e => .error e
  | .ok u =>
    let domainLang : Except DecodeError (LinkDomain × Option (List Char)) :=
      if u.host = "tio.run".data then
        match dropLiteral "/nexus/".data u.path with
        | some l => .ok (.TioNexus, some l)
        | none => .ok (.Tio, none)
      else if u.host = "tryitonline.net".data then .ok (.TryItOnline, none)
      else
        match removeSuffix ".tryitonline.net".data u.host with
        | some l => .ok (.TryItOnline, some l)
        | none => .error (.UnknownDomain (String.mk u.host))
    match domainLang with
    | .error e => .error e
    | .ok (domain, language0) =>
      let frag := u.fragment.getD []
      let langFrag : Except DecodeError (Option (List Char) × List Char) :=
        match splitOnceCh '#' frag with
        | some (l, f) =>
          if language0.isSome then .error .MultipleLanguages else .ok (some l, f)
        | none => .ok (language0, frag)
      match langFrag with
      | .error e => .error e
      | .ok (language, fragment) =>
        match foldFields ⟨none, none, none, none⟩ (splitAllCh '&' fragment) with
        | .error e => .error e
        | .ok acc =>
          .ok { schema := .V1
                domain
                language := String.mk (language.getD [])
                code := acc.code.getD ""
                input := acc.input.getD ""
                args := acc.args.getD []
                debug := acc.debug.getD false }

/-- One fragment field value in URL-safe no-pad base64. -/
def b64FieldChars (s : String) : List Char :=
  urlSafeNoPadEncode (utf8Encode s.data)

/-- The `&args=` fragment piece after its first element: the remaining
elements each preceded by `+`. -/
def argsFragTail : List String → List Char
  | [] => []
  | a :: t => '+' :: (b64FieldChars a ++ argsFragTail t)

/-- The `&args=` fragment piece of `encode_v1` (empty for no arguments,
mirroring the `enumerate` loop). -/
def argsFrag : List String → List Char
  | [] => []
  | a :: t => "&args=".data ++ (b64FieldChars a ++ argsFragTail t)

/-- Model of `LinkState::encode_v1`.  The Rust function asserts
`self.schema == LinkSchema::V1` (panicking otherwise); the model is total
and theorems about it carry that requirement as a hypothesis. -/
def LinkState.encode_v1 (s : LinkState) : String :=
  let head : List Char :=
    match s.domain with
    | .Tio => "https://tio.run/#".data ++ s.language.data
    | .TioNexus => "https://tio.run/nexus/".data ++ s.language.data
    | .TryItOnline =>
      if s.language = "" then "http://tryitonline.net/".data
      else "http://".data ++ (s.language.data ++ ".tryitonline.net/".data)
  String.mk
    (head ++ "#code=".data ++ b64FieldChars s.code ++ "&input=".data ++ b64FieldChars s.input ++
      argsFrag s.args ++ (if s.debug then "&debug=on".data else []))

end SandboxLinks.Tio

namespace SandboxLinks

/-- Characters the URL pipeline passes through untouched — lower-case
ASCII letters, digits, `-`, `_` and `.` — from which the language ids in
sandbox links are built.  Round-trip statements restrict the positional
(host- or path- or fragment-head-carried) language id to these; fields
carried inside base64 or MessagePack payloads need no such restriction. -/
def hostSafe (c : Char) : Prop :=
  (97 ≤ c.toNat ∧ c.toNat ≤ 122) ∨ (48 ≤ c.toNat ∧ c.toNat ≤ 57) ∨
    c = '-' ∨ c = '_' ∨ c = '.'

instance (c : Char) : Decidable (hostSafe c) := by
  unfold hostSafe
  infer_instance

/-- The identity compressor: a `DeflateImpl` satisfying the inverse law
(as raw DEFLATE with `flate2` does), used to instantiate theorems that
are parametric in the compressor. -/
def idDeflate : DeflateImpl := ⟨fun _ d => d, fun d => .ok d⟩

/-- Characters of a query value that the tokenizer hands through verbatim:
not a fragment start, pair separator, key-value separator, or
percent/plus escape.  Theorems about sandbox-A URLs with arbitrary
schema-value payloads restrict the payload to these. -/
def querySafe (c : Char) : Prop :=
  c ≠ '#' ∧ c ≠ '&' ∧ c ≠ '=' ∧ c ≠ '%' ∧ c ≠ '+'

instance (c : Char) : Decidable (querySafe c) := by
  unfold querySafe
  infer_instance

end SandboxLinks

namespace SandboxLinks.Ato

open SandboxLinks

/-- Valid raw sandbox-A link states: a V0 state carries empty `options`
and `program_arguments` (the V0 record has no slots for them), and each
field's UTF-8 length is below 2^32 (`rmp` writes string lengths as
`u32`). -/
def LinkState.Valid (s : LinkState) : Prop :=
  (s.schema = .V0 → s.options = "" ∧ s.program_arguments = "") ∧
    ∀ f ∈ [s.language, s.options, s.header, s.header_encoding, s.code, s.code_encoding,
      s.footer, s.footer_encoding, s.program_arguments, s.input, s.input_encoding],
      (utf8Encode f.data).length < 2 ^ 32

instance (s : LinkState) : Decidable s.Valid := by
  unfold LinkState.Valid
  infer_instance

end SandboxLinks.Ato

namespace SandboxLinks.Tio

open SandboxLinks

/-- Valid raw sandbox-B link states: the v1 schema (the only one with a
codec, and asserted by `encode_v1`), and a language id of URL-plain
characters. -/
def LinkState.Valid (s : LinkState) : Prop :=
  s.schema = .V1 ∧ ∀ c ∈ s.language.data, hostSafe c

instance (s : LinkState) : Decidable s.Valid := by
  unfold LinkState.Valid
  infer_instance

end SandboxLinks.Tio

/-! # Lemmas and theorems -/

namespace SandboxLinks

theorem utf8Decode_cons1 (b0 : Nat) (t : List Nat) (h : b0 < 0x80) :
    utf8Decode (b0 :: t) = (utf8Decode t).map (fun cs => Char.ofNat b0 :: cs) := by
  rw [utf8Decode.eq_def]
  split
  · simp_all
  · rename_i b0' t' heq
    simp only [List.cons.injEq] at heq
    obtain ⟨rfl, rfl⟩ := heq
    rw [if_pos h]

theorem utf8Decode_cons2 (b0 b1 : Nat) (t : List Nat) (h : ¬ b0 < 0x80)
    (h2 : 0xC2 ≤ b0 ∧ b0 < 0xE0) (h3 : 0x80 ≤ b1 ∧ b1 < 0xC0) :
    utf8Decode (b0 :: b1 :: t) =
      (utf8Decode t).map (fun cs => Char.ofNat ((b0 - 0xC0) * 0x40 + (b1 - 0x80)) :: cs) := by
  rw [utf8Decode.eq_def]
  split
  · simp_all
  · rename_i b0' t' heq
    simp only [List.cons.injEq] at heq
    obtain ⟨rfl, heq2⟩ := heq
    rw [if_neg h, show t' = b1 :: t from heq2.symm]
    split
    · rename_i b1' t1' heq'
      simp only [List.cons.injEq] at heq'
      obtain ⟨rfl, rfl⟩ := heq'
      rw [if_pos h2, if_pos h3]
    · simp_all

theorem utf8Decode_cons3 (b0 b1 b2 : Nat) (t : List Nat) (h : ¬ b0 < 0x80)
    (h2 : ¬ (0xC2 ≤ b0 ∧ b0 < 0xE0)) (h4 : 0xE0 ≤ b0 ∧ b0 < 0xF0)
    (h5 : ((b0 = 0xE0 ∧ 0xA0 ≤ b1 ∧ b1 < 0xC0) ∨
        (0xE1 ≤ b0 ∧ b0 ≤ 0xEC ∧ 0x80 ≤ b1 ∧ b1 < 0xC0) ∨
        (b0 = 0xED ∧ 0x80 ≤ b1 ∧ b1 < 0xA0) ∨
        (0xEE ≤ b0 ∧ b0 ≤ 0xEF ∧ 0x80 ≤ b1 ∧ b1 < 0xC0)) ∧
      (0x80 ≤ b2 ∧ b2 < 0xC0)) :
    utf8Decode (b0 :: b1 :: b2 :: t) =
      (utf8Decode t).map (fun cs =>
        Char.ofNat ((b0 - 0xE0) * 0x1000 + (b1 - 0x80) * 0x40 + (b2 - 0x80)) :: cs) := by
  rw [utf8Decode.eq_def]
  split
  · simp_all
  · rename_i b0' t' heq
    simp only [List.cons.injEq] at heq
    obtain ⟨rfl, heq2⟩ := heq
    rw [if_neg h, show t' = b1 :: b2 :: t from heq2.symm]
    split
    · rename_i b1' t1' heq'
      simp only [List.cons.injEq] at heq'
      obtain ⟨rfl, heq3⟩ := heq'
      rw [if_neg h2, show t1' = b2 :: t from heq3.symm]
      split
      · rename_i b2' t2' heq2'
        simp only [List.cons.injEq] at heq2'
        obtain ⟨rfl, rfl⟩ := heq2'
        rw [if_pos h4, if_pos h5]
      · simp_all
    · simp_all

theorem utf8Decode_cons4 (b0 b1 b2 b3 : Nat) (t : List Nat) (h : ¬ b0 < 0x80)
    (h2 : ¬ (0xC2 ≤ b0 ∧ b0 < 0xE0)) (h4 : ¬ (0xE0 ≤ b0 ∧ b0 < 0xF0))
    (h6 : 0xF0 ≤ b0 ∧ b0 ≤ 0xF4)
    (h7 : ((b0 = 0xF0 ∧ 0x90 ≤ b1 ∧ b1 < 0xC0) ∨
        (0xF1 ≤ b0 ∧ b0 ≤ 0xF3 ∧ 0x80 ≤ b1 ∧ b1 < 0xC0) ∨
        (b0 = 0xF4 ∧ 0x80 ≤ b1 ∧ b1 < 0x90)) ∧
      (0x80 ≤ b2 ∧ b2 < 0xC0) ∧ (0x80 ≤ b3 ∧ b3 < 0xC0)) :
    utf8Decode (b0 :: b1 :: b2 :: b3 :: t) =
      (utf8Decode t).map (fun cs =>
        Char.ofNat ((b0 - 0xF0) * 0x40000 + (b1 - 0x80) * 0x1000 +
          (b2 - 0x80) * 0x40 + (b3 - 0x80)) :: cs) := by
  rw [utf8Decode.eq_def]
  split
  · simp_all
  · rename_i b0' t' heq
    simp only [List.cons.injEq] at heq
    obtain ⟨rfl, heq2⟩ := heq
    rw [if_neg h, show t' = b1 :: b2 :: b3 :: t from heq2.symm]
    split
    · rename_i b1' t1' heq'
      simp only [List.cons.injEq] at heq'
      obtain ⟨rfl, heq3⟩ := heq'
      rw [if_neg h2, show t1' = b2 :: b3 :: t from heq3.symm]
      split
      · rename_i b2' t2' heq2'
        simp only [List.cons.injEq] at heq2'
        obtain ⟨rfl, heq4⟩ := heq2'
        rw [if_neg h4, show t2' = b3 :: t from heq4.symm]
        split
        · rename_i b3' t3' heq3'
          simp only [List.cons.injEq] at heq3'
          obtain ⟨rfl, rfl⟩ := heq3'
          rw [if_pos h6, if_pos h7]
        · simp_all
      · simp_all
    · simp_all

theorem char_toNat_valid (c : Char) :
    c.toNat < 0xD800 ∨ (0xE000 ≤ c.toNat ∧ c.toNat < 0x110000) := c.valid

theorem utf8Decode_encodeChar (c : Char) (r : List Nat) :
    utf8Decode (utf8EncodeChar c ++ r) = (utf8Decode r).map (fun cs => c :: cs) := by
  have hv := char_toNat_valid c
  by_cases h1 : c.toNat < 0x80
  · rw [show utf8EncodeChar c = [c.toNat] from by simp [utf8EncodeChar, h1]]
    rw [List.cons_append, List.nil_append, utf8Decode_cons1 _ _ h1, Char.ofNat_toNat]
  · by_cases h2 : c.toNat < 0x800
    · rw [show utf8EncodeChar c = [0xC0 + c.toNat / 0x40, 0x80 + c.toNat % 0x40] from by
        simp [utf8EncodeChar, h1, h2]]
      rw [List.cons_append, List.cons_append, List.nil_append,
        utf8Decode_cons2 _ _ _ (by omega) (by omega) (by omega)]
      rw [show (0xC0 + c.toNat / 0x40 - 0xC0) * 0x40 + (0x80 + c.toNat % 0x40 - 0x80) = c.toNat
        from by omega]
      rw [Char.ofNat_toNat]
    · by_cases h3 : c.toNat < 0x10000
      · rw [show utf8EncodeChar c =
            [0xE0 + c.toNat / 0x1000, 0x80 + c.toNat / 0x40 % 0x40, 0x80 + c.toNat % 0x40] from by
          simp [utf8EncodeChar, h1, h2, h3]]
        rw [List.cons_append, List.cons_append, List.cons_append, List.nil_append,
          utf8Decode_cons3 _ _ _ _ (by omega) (by omega) (by omega) (by omega)]
        rw [show (0xE0 + c.toNat / 0x1000 - 0xE0) * 0x1000 +
            (0x80 + c.toNat / 0x40 % 0x40 - 0x80) * 0x40 + (0x80 + c.toNat % 0x40 - 0x80) = c.toNat
          from by omega]
        rw [Char.ofNat_toNat]
      · rw [show utf8EncodeChar c =
            [0xF0 + c.toNat / 0x40000, 0x80 + c.toNat / 0x1000 % 0x40,
             0x80 + c.toNat / 0x40 % 0x40, 0x80 + c.toNat % 0x40] from by
          simp [utf8EncodeChar, h1, h2, h3]]
        rw [List.cons_append, List.cons_append, List.cons_append, List.cons_append,
          List.nil_append,
          utf8Decode_cons4 _ _ _ _ _ (by omega) (by omega) (by omega) (by omega) (by omega)]
        rw [show (0xF0 + c.toNat / 0x40000 - 0xF0) * 0x40000 +
            (0x80 + c.toNat / 0x1000 % 0x40 - 0x80) * 0x1000 +
            (0x80 + c.toNat / 0x40 % 0x40 - 0x80) * 0x40 + (0x80 + c.toNat % 0x40 - 0x80) = c.toNat
          from by omega]
        rw [Char.ofNat_toNat]

theorem utf8Decode_encode_append (cs : List Char) (r : List Nat) :
    utf8Decode (utf8Encode cs ++ r) = (utf8Decode r).map (fun ds => cs ++ ds) := by
  induction cs with
  | nil =>
    simp [utf8Encode]
  | cons c t ih =>
    rw [utf8Encode, List.append_assoc, utf8Decode_encodeChar, ih]
    cases utf8Decode r <;> simp

theorem utf8Decode_encode (cs : List Char) : utf8Decode (utf8Encode cs) = some cs := by
  have := utf8Decode_encode_append cs []
  simpa [utf8Decode] using this

end SandboxLinks

namespace SandboxLinks

theorem utf8EncodeChar_lt256 (c : Char) : ∀ b ∈ utf8EncodeChar c, b < 256 := by
  have hv := char_toNat_valid c
  intro b hb
  simp only [utf8EncodeChar] at hb
  split at hb
  · simp at hb; omega
  · split at hb
    · simp at hb; rcases hb with hb | hb <;> omega
    · split at hb
      · simp at hb; rcases hb with hb | hb | hb <;> omega
      · simp at hb; rcases hb with hb | hb | hb | hb <;> omega

theorem utf8Encode_lt256 (cs : List Char) : ∀ b ∈ utf8Encode cs, b < 256 := by
  induction cs with
  | nil => simp [utf8Encode]
  | cons c t ih =>
    intro b hb
    rw [utf8Encode] at hb
    rcases List.mem_append.mp hb with h | h
    · exact utf8EncodeChar_lt256 c b h
    · exact ih b h

theorem utf8Encode_ascii (cs : List Char) (h : ∀ c ∈ cs, c.toNat < 0x80) :
    utf8Encode cs = cs.map Char.toNat := by
  induction cs with
  | nil => simp [utf8Encode]
  | cons c t ih =>
    rw [utf8Encode, List.map_cons, ← ih (fun x hx => h x (List.mem_cons_of_mem c hx))]
    rw [show utf8EncodeChar c = [c.toNat] from by
      simp [utf8EncodeChar, h c (List.mem_cons_self c t)]]
    rfl

theorem b64UrlIdx_urlChar : ∀ k, k < 64 → b64UrlIdx ((b64UrlChar k).toNat) = some k := by decide

theorem b64StdIdx_stdChar : ∀ k, k < 64 → b64StdIdx ((b64StdChar k).toNat) = some k := by decide

theorem b64UrlChar_ascii : ∀ k, k < 64 → (b64UrlChar k).toNat < 0x80 := by decide

theorem b64Encode_mem (alpha : Nat → Char) (bytes : List Nat) (h : ∀ b ∈ bytes, b < 256) :
    ∀ c ∈ b64Encode alpha bytes, ∃ k, k < 64 ∧ c = alpha k := by
  induction bytes using b64Encode.induct alpha with
  | case4 => intro c hc; simp [b64Encode] at hc
  | case3 b0 =>
    intro c hc
    have hb0 := h b0 (by simp)
    rw [b64Encode] at hc
    simp only [List.mem_cons, List.not_mem_nil, or_false] at hc
    rcases hc with hc | hc
    · exact ⟨b0 / 4, by omega, hc⟩
    · exact ⟨b0 % 4 * 16, by omega, hc⟩
  | case2 b0 b1 =>
    intro c hc
    have hb0 := h b0 (by simp)
    have hb1 := h b1 (by simp)
    rw [b64Encode] at hc
    simp only [List.mem_cons, List.not_mem_nil, or_false] at hc
    rcases hc with hc | hc | hc
    · exact ⟨b0 / 4, by omega, hc⟩
    · exact ⟨b0 % 4 * 16 + b1 / 16, by omega, hc⟩
    · exact ⟨b1 % 16 * 4, by omega, hc⟩
  | case1 b0 b1 b2 rest ih =>
    intro c hc
    have hb0 := h b0 (by simp)
    have hb1 := h b1 (by simp)
    have hb2 := h b2 (by simp)
    rw [b64Encode] at hc
    simp only [List.mem_cons] at hc
    rcases hc with hc | hc | hc | hc | hc
    · exact ⟨b0 / 4, by omega, hc⟩
    · exact ⟨b0 % 4 * 16 + b1 / 16, by omega, hc⟩
    · exact ⟨b1 % 16 * 4 + b2 / 64, by omega, hc⟩
    · exact ⟨b2 % 64, by omega, hc⟩
    · exact ih (fun b hb => h b (by simp [hb])) c hc

theorem b64FirstBad_none (idx : Nat → Option Nat) (l : List Nat)
    (h : ∀ b ∈ l, (idx b).isSome) : ∀ off, b64FirstBad idx off l = none := by
  induction l with
  | nil => intro off; rfl
  | cons b t ih =>
    intro off
    rw [b64FirstBad, if_pos (h b (List.mem_cons_self b t))]
    exact ih (fun x hx => h x (List.mem_cons_of_mem b hx)) (off + 1)

theorem b64FirstBad_some (idx : Nat → Option Nat) (l : List Nat) (b : Nat)
    (hb : b ∈ l) (h : idx b = none) : ∀ off, ∃ e, b64FirstBad idx off l = some e := by
  induction l with
  | nil => simp at hb
  | cons a t ih =>
    intro off
    rcases List.mem_cons.mp hb with rfl | hb2
    · rw [b64FirstBad, if_neg (by simp [h])]
      by_cases hpad : b = 61
      · exact ⟨.invalidPadding, by rw [if_pos hpad]⟩
      · exact ⟨.invalidByte off b, by rw [if_neg hpad]⟩
    · by_cases ha : (idx a).isSome
      · rw [b64FirstBad, if_pos ha]
        exact ih hb2 (off + 1)
      · rw [b64FirstBad, if_neg ha]
        by_cases hpad : a = 61
        · exact ⟨.invalidPadding, by rw [if_pos hpad]⟩
        · exact ⟨.invalidByte off a, by rw [if_neg hpad]⟩

theorem b64Encode_length_mod (alpha : Nat → Char) (bytes : List Nat) :
    (b64Encode alpha bytes).length % 4 ≠ 1 := by
  induction bytes using b64Encode.induct alpha with
  | case4 => simp [b64Encode]
  | case3 b0 => simp [b64Encode]
  | case2 b0 b1 => simp [b64Encode]
  | case1 b0 b1 b2 rest ih => rw [b64Encode]; simp only [List.length_cons]; omega

theorem b64Encode_nil_iff (alpha : Nat → Char) (bytes : List Nat) :
    b64Encode alpha bytes = [] ↔ bytes = [] := by
  cases bytes with
  | nil => simp [b64Encode]
  | cons b0 t =>
    cases t with
    | nil => simp [b64Encode]
    | cons b1 t2 =>
      cases t2 with
      | nil => simp [b64Encode]
      | cons b2 t3 => simp [b64Encode]

theorem b64Quads_encode (alpha : Nat → Char) (idx : Nat → Option Nat)
    (hab : ∀ k, k < 64 → idx ((alpha k).toNat) = some k)
    (bytes : List Nat) (h256 : ∀ b ∈ bytes, b < 256) : ∀ off,
    b64Quads off
      ((b64Encode alpha bytes).map (fun c => (c.toNat, (idx c.toNat).getD 0))) = .ok bytes := by
  induction bytes using b64Encode.induct alpha with
  | case4 => intro off; rfl
  | case3 b0 =>
    intro off
    have hb0 := h256 b0 (by simp)
    rw [b64Encode]
    simp only [List.map_cons, List.map_nil]
    rw [hab (b0 / 4) (by omega), hab (b0 % 4 * 16) (by omega)]
    simp only [Option.getD_some]
    rw [b64Quads, if_pos (by omega),
      show b0 / 4 * 4 + b0 % 4 * 16 / 16 = b0 from by omega]
  | case2 b0 b1 =>
    intro off
    have hb0 := h256 b0 (by simp)
    have hb1 := h256 b1 (by simp)
    rw [b64Encode]
    simp only [List.map_cons, List.map_nil]
    rw [hab (b0 / 4) (by omega), hab (b0 % 4 * 16 + b1 / 16) (by omega),
      hab (b1 % 16 * 4) (by omega)]
    simp only [Option.getD_some]
    rw [b64Quads, if_pos (by omega),
      show b0 / 4 * 4 + (b0 % 4 * 16 + b1 / 16) / 16 = b0 from by omega,
      show (b0 % 4 * 16 + b1 / 16) % 16 * 16 + b1 % 16 * 4 / 4 = b1 from by omega]
  | case1 b0 b1 b2 rest ih =>
    intro off
    have hb0 := h256 b0 (by simp)
    have hb1 := h256 b1 (by simp)
    have hb2 := h256 b2 (by simp)
    have hrest : ∀ b ∈ rest, b < 256 := fun b hb => h256 b (by simp [hb])
    rw [b64Encode]
    simp only [List.map_cons]
    rw [hab (b0 / 4) (by omega), hab (b0 % 4 * 16 + b1 / 16) (by omega),
      hab (b1 % 16 * 4 + b2 / 64) (by omega), hab (b2 % 64) (by omega)]
    simp only [Option.getD_some]
    have harith1 : b0 / 4 * 4 + (b0 % 4 * 16 + b1 / 16) / 16 = b0 := by omega
    have harith2 : (b0 % 4 * 16 + b1 / 16) % 16 * 16 + (b1 % 16 * 4 + b2 / 64) / 4 = b1 := by
      omega
    have harith3 : (b1 % 16 * 4 + b2 / 64) % 4 * 64 + b2 % 64 = b2 := by omega
    by_cases hr : rest = []
    · subst hr
      rw [show b64Encode alpha [] = [] from rfl]
      simp only [List.map_nil]
      rw [b64Quads]
      rw [harith1, harith2, harith3]
    · have hne : b64Encode alpha rest ≠ [] := by
        simpa [b64Encode_nil_iff] using hr
      match hmm : b64Encode alpha rest with
      | [] => exact absurd hmm hne
      | q :: qs =>
        simp only [List.map_cons]
        rw [b64Quads]
        have ihh := ih hrest (off + 4)
        rw [hmm] at ihh
        simp only [List.map_cons] at ihh
        rw [ihh]
        simp only [Except.map]
        rw [harith1, harith2, harith3]

theorem b64Decode_encode (alpha : Nat → Char) (idx : Nat → Option Nat)
    (hab : ∀ k, k < 64 → idx ((alpha k).toNat) = some k)
    (bytes : List Nat) (h256 : ∀ b ∈ bytes, b < 256) :
    b64Decode idx ((b64Encode alpha bytes).map Char.toNat) = .ok bytes := by
  have hmem : ∀ b ∈ (b64Encode alpha bytes).map Char.toNat, (idx b).isSome := by
    intro b hb
    rcases List.mem_map.mp hb with ⟨c, hc, rfl⟩
    rcases b64Encode_mem alpha bytes h256 c hc with ⟨k, hk, rfl⟩
    rw [hab k hk]
    rfl
  rw [b64Decode, b64FirstBad_none idx _ hmem 0]
  rw [if_neg (by simpa using b64Encode_length_mod alpha bytes)]
  rw [List.map_map]
  exact b64Quads_encode alpha idx hab bytes h256 0

end SandboxLinks

namespace SandboxLinks

theorem pctBytes_cons_plain (c : Char) (t : List Char) (h1 : c ≠ '%') (h2 : c ≠ '+') :
    pctBytes (c :: t) = utf8EncodeChar c ++ pctBytes t := by
  rw [pctBytes.eq_def]
  split <;> simp_all

theorem pctBytes_plain (l : List Char) (h : ∀ c ∈ l, c ≠ '%' ∧ c ≠ '+') :
    pctBytes l = utf8Encode l := by
  induction l with
  | nil => rfl
  | cons c t ih =>
    have hc := h c (List.mem_cons_self c t)
    rw [pctBytes_cons_plain c t hc.1 hc.2, utf8Encode,
      ih (fun x hx => h x (List.mem_cons_of_mem c hx))]

theorem percentDecodePlus_plain (l : List Char) (h : ∀ c ∈ l, c ≠ '%' ∧ c ≠ '+') :
    percentDecodePlus l = l := by
  rw [percentDecodePlus]
  simp only [pctBytes_plain l h, utf8Decode_encode]

theorem takeUntil_no_stop (stop : List Char) (l : List Char) (h : ∀ c ∈ l, c ∉ stop) :
    takeUntil stop l = (l, []) := by
  induction l with
  | nil => rfl
  | cons c t ih =>
    rw [takeUntil, if_neg (h c (List.mem_cons_self c t)),
      ih (fun x hx => h x (List.mem_cons_of_mem c hx))]

theorem takeUntil_append_stop (stop : List Char) (l : List Char) (d : Char) (r : List Char)
    (h : ∀ c ∈ l, c ∉ stop) (hd : d ∈ stop) :
    takeUntil stop (l ++ d :: r) = (l, d :: r) := by
  induction l with
  | nil => rw [List.nil_append, takeUntil, if_pos hd]
  | cons c t ih =>
    rw [List.cons_append, takeUntil, if_neg (h c (List.mem_cons_self c t)),
      ih (fun x hx => h x (List.mem_cons_of_mem c hx))]

theorem dropLiteral_append (p r : List Char) : dropLiteral p (p ++ r) = some r := by
  induction p with
  | nil => rfl
  | cons c t ih => rw [List.cons_append, dropLiteral, if_pos rfl, ih]

theorem removeSuffix_append (suf x : List Char) : removeSuffix suf (x ++ suf) = some x := by
  rw [removeSuffix, if_pos]
  · rw [show (x ++ suf).length - suf.length = x.length from by simp, List.take_left]
  · exact List.isSuffixOf_iff_suffix.mpr ⟨x, rfl⟩

theorem splitOnceCh_none (c : Char) (l : List Char) (h : ∀ x ∈ l, x ≠ c) :
    splitOnceCh c l = none := by
  induction l with
  | nil => rfl
  | cons a t ih =>
    rw [splitOnceCh, if_neg (h a (List.mem_cons_self a t)),
      ih (fun x hx => h x (List.mem_cons_of_mem a hx))]
    rfl

theorem splitOnceCh_append (c : Char) (k v : List Char) (h : ∀ x ∈ k, x ≠ c) :
    splitOnceCh c (k ++ c :: v) = some (k, v) := by
  induction k with
  | nil => rw [List.nil_append, splitOnceCh, if_pos rfl]
  | cons a t ih =>
    rw [List.cons_append, splitOnceCh, if_neg (h a (List.mem_cons_self a t)),
      ih (fun x hx => h x (List.mem_cons_of_mem a hx))]
    rfl

theorem splitAllCh_no (c : Char) (l : List Char) (h : ∀ x ∈ l, x ≠ c) :
    splitAllCh c l = [l] := by
  induction l with
  | nil => rfl
  | cons a t ih =>
    rw [splitAllCh]
    rw [ih (fun x hx => h x (List.mem_cons_of_mem a hx))]
    rw [if_neg (h a (List.mem_cons_self a t))]

theorem splitAllCh_ne_nil (c : Char) (l : List Char) : splitAllCh c l ≠ [] := by
  induction l with
  | nil => simp [splitAllCh]
  | cons a t ih =>
    rw [splitAllCh]
    by_cases ha : a = c
    · simp [ha]
    · rw [if_neg ha]
      match hmm : splitAllCh c t with
      | [] => exact absurd hmm ih
      | h1 :: rs => simp

theorem splitAllCh_append (c : Char) (l r : List Char) (h : ∀ x ∈ l, x ≠ c) :
    splitAllCh c (l ++ c :: r) = l :: splitAllCh c r := by
  induction l with
  | nil => rw [List.nil_append, splitAllCh, if_pos rfl]
  | cons a t ih =>
    rw [List.cons_append, splitAllCh,
      ih (fun x hx => h x (List.mem_cons_of_mem a hx)),
      if_neg (h a (List.mem_cons_self a t))]

theorem toLower_fixed (c : Char) (h : ¬ (65 ≤ c.toNat ∧ c.toNat ≤ 90)) : c.toLower = c := by
  simp [Char.toLower]
  omega

end SandboxLinks

namespace SandboxLinks

theorem tryFrom_ok_mem (s : String) (v : Ato.Encoding) (h : Ato.Encoding.tryFrom s = .ok v) :
    ((s = "utf-8" ∨ s = "") ∧ v = .Utf8) ∨ (s = "sbcs" ∧ v = .Sbcs) ∨
      (s = "base64" ∧ v = .Base64) := by
  rw [Ato.Encoding.tryFrom] at h
  split_ifs at h with h1 h2 h3
  · exact Or.inl ⟨h1, by simpa using h.symm⟩
  · exact Or.inr (Or.inl ⟨h2, by simpa using h.symm⟩)
  · exact Or.inr (Or.inr ⟨h3, by simpa using h.symm⟩)

/-- Claim C3: in sandbox A typed-state resolution, the encoding tag strings
`"utf-8"` and `""` map to `Utf8`, `"sbcs"` to `Sbcs`, `"base64"` to
`Base64`, and every other string is rejected with `InvalidEncoding`
carrying that string. -/
theorem C3_encoding_tags :
    Ato.Encoding.tryFrom "utf-8" = .ok .Utf8 ∧ Ato.Encoding.tryFrom "" = .ok .Utf8 ∧
    Ato.Encoding.tryFrom "sbcs" = .ok .Sbcs ∧ Ato.Encoding.tryFrom "base64" = .ok .Base64 ∧
    ∀ s : String, s ∉ (["utf-8", "", "sbcs", "base64"] : List String) →
      Ato.Encoding.tryFrom s = .error (.InvalidEncoding s) := by
  refine ⟨rfl, rfl, rfl, rfl, fun s hs => ?_⟩
  simp only [List.mem_cons, List.not_mem_nil, or_false, not_or] at hs
  obtain ⟨h1, h2, h3, h4⟩ := hs
  rw [Ato.Encoding.tryFrom, if_neg (by simp [h1, h2]), if_neg h3, if_neg h4]

/-- Witness for C3 at the claim's example `"latin-1"`. -/
theorem C3_encoding_tags_witness :
    "latin-1" ∉ (["utf-8", "", "sbcs", "base64"] : List String) ∧
      Ato.Encoding.tryFrom "latin-1" = .error (.InvalidEncoding "latin-1") :=
  ⟨by decide, C3_encoding_tags.2.2.2.2 "latin-1" (by decide)⟩

/-- Counterexample to claim C8 as stated: the two distinct accepted tag
strings `"utf-8"` and `""` map to the same `Encoding` value, so the
mapping of accepted tags is not injective. -/
theorem C8_injective_counterexample :
    Ato.Encoding.tryFrom "utf-8" = .ok .Utf8 ∧ Ato.Encoding.tryFrom "" = .ok .Utf8 ∧
      ("utf-8" : String) ≠ "" :=
  ⟨rfl, rfl, by decide⟩

/-- Claim C8 as amended: the encoding tag mapping is injective except for
the alias pair `""`/`"utf-8"` (two accepted tags mapping to one value are
that pair), it is onto the closed enumeration, and any string outside the
accepted set is rejected. -/
theorem C8_injective_amended :
    (∀ s t : String, ∀ v : Ato.Encoding, Ato.Encoding.tryFrom s = .ok v →
      Ato.Encoding.tryFrom t = .ok v → s ≠ t →
      (s = "utf-8" ∧ t = "") ∨ (s = "" ∧ t = "utf-8")) ∧
    (∀ v : Ato.Encoding, ∃ s, Ato.Encoding.tryFrom s = .ok v) ∧
    (∀ s : String, s ∉ (["utf-8", "", "sbcs", "base64"] : List String) →
      Ato.Encoding.tryFrom s = .error (.InvalidEncoding s)) := by
  refine ⟨?_, ?_, ?_⟩
  · intro s t v hs ht hst
    rcases tryFrom_ok_mem s v hs with ⟨hs1, hv1⟩ | ⟨hs1, hv1⟩ | ⟨hs1, hv1⟩
    · rcases tryFrom_ok_mem t v ht with ⟨ht1, hv2⟩ | ⟨ht1, hv2⟩ | ⟨ht1, hv2⟩
      · rcases hs1 with rfl | rfl <;> rcases ht1 with rfl | rfl
        · exact absurd rfl hst
        · exact Or.inl ⟨rfl, rfl⟩
        · exact Or.inr ⟨rfl, rfl⟩
        · exact absurd rfl hst
      · rw [hv1] at hv2; simp at hv2
      · rw [hv1] at hv2; simp at hv2
    · rcases tryFrom_ok_mem t v ht with ⟨ht1, hv2⟩ | ⟨ht1, hv2⟩ | ⟨ht1, hv2⟩
      · rw [hv1] at hv2; simp at hv2
      · subst hs1; subst ht1; exact absurd rfl hst
      · rw [hv1] at hv2; simp at hv2
    · rcases tryFrom_ok_mem t v ht with ⟨ht1, hv2⟩ | ⟨ht1, hv2⟩ | ⟨ht1, hv2⟩
      · rw [hv1] at hv2; simp at hv2
      · rw [hv1] at hv2; simp at hv2
      · subst hs1; subst ht1; exact absurd rfl hst
  · intro v
    cases v with
    | Utf8 => exact ⟨"utf-8", rfl⟩
    | Sbcs => exact ⟨"sbcs", rfl⟩
    | Base64 => exact ⟨"base64", rfl⟩
  · intro s hs
    simp only [List.mem_cons, List.not_mem_nil, or_false, not_or] at hs
    obtain ⟨h1, h2, h3, h4⟩ := hs
    rw [Ato.Encoding.tryFrom, if_neg (by simp [h1, h2]), if_neg h3, if_neg h4]

/-- Witness for the amended C8 at the alias pair. -/
theorem C8_injective_amended_witness :
    (("utf-8" : String) = "utf-8" ∧ ("" : String) = "") ∨
      (("utf-8" : String) = "" ∧ ("" : String) = "utf-8") :=
  C8_injective_amended.1 "utf-8" "" .Utf8 rfl rfl (by decide)

/-- Evaluation of `parse_arg_list` at the inputs of claim C2: the code
parses `["--", "-6"]` to the JSON-quoted elements (via
`serde_json::Value`'s `Display`), not to the two strings' contents; the
object element is rejected as `ObjectArg` carrying the value; `[]` and
the empty string give the empty list. -/
theorem C2_parse_arg_list_eval :
    Ato.parse_arg_list "[\"--\", \"-6\"]" = .ok ["\"--\"", "\"-6\""] ∧
    Ato.parse_arg_list "[\x7b\"a\":1\x7d]" = .error (.ObjectArg (.obj [("a", .int 1)])) ∧
    Ato.parse_arg_list "[]" = .ok [] ∧
    Ato.parse_arg_list "" = .ok [] :=
  ⟨rfl, rfl, rfl, rfl⟩

end SandboxLinks

namespace SandboxLinks

theorem toNat_mem_utf8Encode (s : List Char) (c : Char) (hc : c ∈ s) (ha : c.toNat < 0x80) :
    c.toNat ∈ utf8Encode s := by
  induction s with
  | nil => simp at hc
  | cons a t ih =>
    rw [utf8Encode, List.mem_append]
    rcases List.mem_cons.mp hc with rfl | hc2
    · exact Or.inl (by rw [show utf8EncodeChar c = [c.toNat] from by simp [utf8EncodeChar, ha]]; simp)
    · exact Or.inr (ih hc2)

theorem b64Decode_error_of_bad (idx : Nat → Option Nat) (l : List Nat) (b : Nat)
    (hb : b ∈ l) (hbad : idx b = none) : ∃ e, b64Decode idx l = .error e := by
  obtain ⟨e, he⟩ := b64FirstBad_some idx l b hb hbad 0
  exact ⟨e, by rw [b64Decode, he]⟩

/-- Counterexample to claim C6 as stated: the field value `-_+/`, which
mixes the URL-safe alphabet's `-`/`_` with the standard alphabet's
`+`/`/`, fails to decode (with the URL-safe attempt's invalid-byte error
at the `+`), rather than decoding to the bytes it denotes. -/
theorem C6_mixed_alphabets_counterexample :
    Tio.decode_field "-_+/".data = .error (.Base64 (.invalidByte 2 43)) := rfl

/-- Claim C6 as amended: sandbox B field decoding tolerates the standard
alphabet only as a whole-value fallback after the URL-safe decode fails
(shown at a concrete value that needs it), and a value genuinely
intermixing the two alphabets' distinctive characters fails, surfacing
the URL-safe attempt's error. -/
theorem C6_alphabet_fallback_amended :
    (∀ s : List Char, ∀ c1 c2 : Char, c1 ∈ s → c2 ∈ s →
      (c1 = '-' ∨ c1 = '_') → (c2 = '+' ∨ c2 = '/') →
      ∃ e, urlSafeNoPadDecode (utf8Encode s) = .error e ∧
        Tio.decode_field s = .error (.Base64 e)) ∧
    Tio.decode_field "4b+A".data = .ok (String.mk [Char.ofNat 0x1FC0]) := by
  constructor
  · intro s c1 c2 h1 h2 hc1 hc2
    have ha1 : c1.toNat < 0x80 := by rcases hc1 with rfl | rfl <;> decide
    have ha2 : c2.toNat < 0x80 := by rcases hc2 with rfl | rfl <;> decide
    have hbadUrl : b64UrlIdx c2.toNat = none := by rcases hc2 with rfl | rfl <;> decide
    have hbadStd : b64StdIdx c1.toNat = none := by rcases hc1 with rfl | rfl <;> decide
    obtain ⟨e1, he1⟩ := b64Decode_error_of_bad b64UrlIdx (utf8Encode s) c2.toNat
      (toNat_mem_utf8Encode s c2 h2 ha2) hbadUrl
    obtain ⟨e2, he2⟩ := b64Decode_error_of_bad b64StdIdx (utf8Encode s) c1.toNat
      (toNat_mem_utf8Encode s c1 h1 ha1) hbadStd
    refine ⟨e1, he1, ?_⟩
    rw [Tio.decode_field]
    rw [show urlSafeNoPadDecode (utf8Encode s) = .error e1 from he1,
      show standardNoPadDecode (utf8Encode s) = .error e2 from he2]
  · rfl

/-- Witness for the amended C6 at the mixed value `_+`. -/
theorem C6_alphabet_fallback_amended_witness :
    ∃ e, urlSafeNoPadDecode (utf8Encode "_+".data) = .error e ∧
      Tio.decode_field "_+".data = .error (.Base64 e) :=
  C6_alphabet_fallback_amended.1 "_+".data '_' '+' (by decide) (by decide)
    (Or.inr rfl) (Or.inl rfl)

end SandboxLinks

namespace SandboxLinks

theorem foldFields_skip (acc : Tio.FieldsAcc) (field : List Char) (rest : List (List Char))
    (h : ¬ '=' ∈ field) :
    Tio.foldFields acc (field :: rest) = Tio.foldFields acc rest := by
  rw [Tio.foldFields, splitOnceCh_none '=' field (fun x hx hxe => h (hxe ▸ hx))]

/-- Claim C10: in sandbox B decoding, a fragment field with no `=` (a
stray token or the empty field of a trailing `&`) is silently skipped —
the loop state is unchanged and no error can arise from it — shown both
on the decode loop and on a full link with a stray `junk` token and a
trailing `&`. -/
theorem C10_field_without_equals :
    (∀ acc : Tio.FieldsAcc, ∀ field rest, ¬ '=' ∈ field →
      Tio.foldFields acc (field :: rest) = Tio.foldFields acc rest) ∧
    Tio.LinkState.decode_v1 "https://tio.run/#x#code=aGk&junk&" =
      .ok { schema := .V1, domain := .Tio, language := "x", code := "hi", input := "",
            args := [], debug := false } :=
  ⟨foldFields_skip, rfl⟩

/-- Witness for C10: skipping the stray token `junk` leaves the empty
loop state unchanged. -/
theorem C10_field_without_equals_witness :
    Tio.foldFields ⟨none, none, none, none⟩ ["junk".data] =
      Tio.foldFields ⟨none, none, none, none⟩ [] :=
  C10_field_without_equals.1 ⟨none, none, none, none⟩ "junk".data [] (by decide)

/-- Claim C9: in sandbox B decoding, a second `key=`-occurrence of any of
`code`, `input`, `args` or `debug` is rejected with `DuplicateField`
naming the key — the filled slot is never overwritten — shown on the
decode loop for each key and on a full link with two `code` fields. -/
theorem C9_duplicate_fields :
    (∀ acc : Tio.FieldsAcc, ∀ v : List Char, ∀ rest, ¬ '=' ∈ v →
      (acc.code ≠ none →
        Tio.foldFields acc (("code=".data ++ v) :: rest) = .error (.DuplicateField "code")) ∧
      (acc.input ≠ none →
        Tio.foldFields acc (("input=".data ++ v) :: rest) = .error (.DuplicateField "input")) ∧
      (acc.args ≠ none →
        Tio.foldFields acc (("args=".data ++ v) :: rest) = .error (.DuplicateField "args")) ∧
      (acc.debug ≠ none →
        Tio.foldFields acc (("debug=".data ++ v) :: rest) = .error (.DuplicateField "debug"))) ∧
    Tio.LinkState.decode_v1 "https://tio.run/#l#code=&code=" =
      .error (.DuplicateField "code") := by
  constructor
  · intro acc v rest hv
    have hvne : ∀ x ∈ v, x ≠ '=' := fun x hx hxe => hv (hxe ▸ hx)
    refine ⟨?_, ?_, ?_, ?_⟩
    · intro hc
      obtain ⟨c, hcv⟩ := Option.ne_none_iff_exists'.mp hc
      rw [show ("code=".data ++ v : List Char) = "code".data ++ '=' :: v from rfl]
      rw [Tio.foldFields, splitOnceCh_append '=' "code".data v (by decide)]
      dsimp only
      rw [if_neg hv, if_pos rfl, hcv]
    · intro hc
      obtain ⟨c, hcv⟩ := Option.ne_none_iff_exists'.mp hc
      rw [show ("input=".data ++ v : List Char) = "input".data ++ '=' :: v from rfl]
      rw [Tio.foldFields, splitOnceCh_append '=' "input".data v (by decide)]
      dsimp only
      rw [if_neg hv, if_neg (by decide), if_pos rfl, hcv]
    · intro hc
      obtain ⟨c, hcv⟩ := Option.ne_none_iff_exists'.mp hc
      rw [show ("args=".data ++ v : List Char) = "args".data ++ '=' :: v from rfl]
      rw [Tio.foldFields, splitOnceCh_append '=' "args".data v (by decide)]
      dsimp only
      rw [if_neg hv, if_neg (by decide), if_neg (by decide), if_pos rfl, hcv]
    · intro hc
      obtain ⟨c, hcv⟩ := Option.ne_none_iff_exists'.mp hc
      rw [show ("debug=".data ++ v : List Char) = "debug".data ++ '=' :: v from rfl]
      rw [Tio.foldFields, splitOnceCh_append '=' "debug".data v (by decide)]
      dsimp only
      rw [if_neg hv, if_neg (by decide), if_neg (by decide), if_neg (by decide), if_pos rfl, hcv]
  · rfl

/-- Witness for C9: each key errors on its second occurrence from a state
whose slot is already filled. -/
theorem C9_duplicate_fields_witness :
    Tio.foldFields ⟨some "", some "", some [], some true⟩ ["code=".data] =
        .error (.DuplicateField "code") ∧
      Tio.foldFields ⟨some "", some "", some [], some true⟩ ["input=".data] =
        .error (.DuplicateField "input") ∧
      Tio.foldFields ⟨some "", some "", some [], some true⟩ ["args=".data] =
        .error (.DuplicateField "args") ∧
      Tio.foldFields ⟨some "", some "", some [], some true⟩ ["debug=".data] =
        .error (.DuplicateField "debug") := by
  have h := C9_duplicate_fields.1 ⟨some "", some "", some [], some true⟩ [] [] (by decide)
  exact ⟨h.1 (by simp), h.2.1 (by simp), h.2.2.1 (by simp), h.2.2.2 (by simp)⟩

end SandboxLinks

namespace SandboxLinks

theorem char_ne_of_toNat_ne {c d : Char} (h : c.toNat ≠ d.toNat) : c ≠ d :=
  fun he => h (by rw [he])

theorem hostSafe_toNat (c : Char) (h : hostSafe c) :
    c.toNat < 0x80 ∧ c.toNat ≠ 47 ∧ c.toNat ≠ 63 ∧ c.toNat ≠ 35 ∧ c.toNat ≠ 38 ∧
      c.toNat ≠ 61 ∧ c.toNat ≠ 43 ∧ c.toNat ≠ 37 ∧ c.toNat ≠ 58 ∧
      ¬(65 ≤ c.toNat ∧ c.toNat ≤ 90) := by
  rcases h with h | h | rfl | rfl | rfl <;> first | omega | decide

theorem hostSafe_not_delim (c : Char) (h : hostSafe c) :
    c ∉ (['/', '?', '#'] : List Char) := by
  have ht := hostSafe_toNat c h
  simp only [List.mem_cons, List.not_mem_nil, or_false, not_or]
  exact ⟨char_ne_of_toNat_ne ht.2.1, char_ne_of_toNat_ne ht.2.2.1,
    char_ne_of_toNat_ne ht.2.2.2.1⟩

theorem map_toLower_fixed (l : List Char) (h : ∀ c ∈ l, ¬(65 ≤ c.toNat ∧ c.toNat ≤ 90)) :
    l.map Char.toLower = l := by
  induction l with
  | nil => rfl
  | cons c t ih =>
    rw [List.map_cons, toLower_fixed c (h c (List.mem_cons_self c t)),
      ih (fun x hx => h x (List.mem_cons_of_mem c hx))]

theorem urlParse_https (rest : List Char) :
    urlParse (String.mk ("https://".data ++ rest)) = urlParseFrom "https".data rest := rfl

theorem urlParse_http (rest : List Char) :
    urlParse (String.mk ("http://".data ++ rest)) = urlParseFrom "http".data rest := rfl

theorem urlParse_legacy_noFragment (lang : String) (hl : ∀ c ∈ lang.data, hostSafe c) :
    urlParse (String.mk ("http://".data ++ (lang.data ++ ".tryitonline.net/".data))) =
      .ok ⟨"http".data, lang.data ++ ".tryitonline.net".data, ['/'], none, none⟩ := by
  rw [urlParse_http]
  have hnd : ∀ c ∈ lang.data ++ ".tryitonline.net".data, c ∉ (['/', '?', '#'] : List Char) := by
    intro c hc
    rcases List.mem_append.mp hc with hc | hc
    · exact hostSafe_not_delim c (hl c hc)
    · have hconc : ∀ x ∈ (".tryitonline.net".data : List Char),
          x ∉ (['/', '?', '#'] : List Char) := by decide
      exact hconc c hc
  have hre : (lang.data ++ ".tryitonline.net/".data : List Char) =
      (lang.data ++ ".tryitonline.net".data) ++ '/' :: [] := by
    rw [List.append_assoc]
    rfl
  rw [urlParseFrom, hre, takeUntil_append_stop _ _ '/' [] hnd (by decide)]
  dsimp only
  rw [if_neg (by simp)]
  rw [List.map_append, map_toLower_fixed lang.data
    (fun c hc => (hostSafe_toNat c (hl c hc)).2.2.2.2.2.2.2.2.2),
    show (".tryitonline.net".data : List Char).map Char.toLower = ".tryitonline.net".data
      from by decide]
  rfl

end SandboxLinks

namespace SandboxLinks

theorem decode_v1_legacy_noFragment (lang : String) (hl : ∀ c ∈ lang.data, hostSafe c) :
    Tio.LinkState.decode_v1
        (String.mk ("http://".data ++ (lang.data ++ ".tryitonline.net/".data))) =
      .ok { schema := .V1, domain := .TryItOnline, language := lang, code := "", input := "",
            args := [], debug := false } := by
  have hu := urlParse_legacy_noFragment lang hl
  have hlen : (".tryitonline.net".data : List Char).length = 16 := rfl
  have h1 : (lang.data ++ ".tryitonline.net".data : List Char) ≠ "tio.run".data := by
    intro h
    have hlh := congrArg List.length h
    simp only [List.length_append, hlen, show ("tio.run".data : List Char).length = 7 from rfl]
      at hlh
    omega
  have h2 : (lang.data ++ ".tryitonline.net".data : List Char) ≠ "tryitonline.net".data := by
    intro h
    have hlh := congrArg List.length h
    simp only [List.length_append, hlen,
      show ("tryitonline.net".data : List Char).length = 15 from rfl] at hlh
    omega
  rw [Tio.LinkState.decode_v1, hu]
  dsimp only [Except.mapError]
  rw [if_neg h1, if_neg h2, removeSuffix_append]
  rfl

end SandboxLinks

namespace SandboxLinks

/-- Counterexample to claim C7 as stated: an old-format link whose
fragment has an `input` field but no `code` field decodes successfully
(to an empty `code`), it does not fail. -/
theorem C7_missing_code_counterexample :
    Tio.LinkState.decode_v1 "http://x.tryitonline.net/#input=" =
      .ok { schema := .V1, domain := .TryItOnline, language := "x", code := "", input := "",
            args := [], debug := false } := rfl

/-- Claim C7 as amended: sandbox B's old-format decoder requires no field
at all — a link lacking `code` decodes with empty code — and a legacy
link with only a language-bearing subdomain and no fragment decodes to
empty code and input without error (shown here for every URL-plain
language id, plus a codeless `tio.run` link). -/
theorem C7_no_required_fields_amended :
    (∀ lang : String, (∀ c ∈ lang.data, hostSafe c) →
      Tio.LinkState.decode_v1
          (String.mk ("http://".data ++ (lang.data ++ ".tryitonline.net/".data))) =
        .ok { schema := .V1, domain := .TryItOnline, language := lang, code := "", input := "",
              args := [], debug := false }) ∧
    Tio.LinkState.decode_v1 "https://tio.run/##input=aGk" =
      .ok { schema := .V1, domain := .Tio, language := "", code := "", input := "hi",
            args := [], debug := false } :=
  ⟨decode_v1_legacy_noFragment, rfl⟩

/-- Witness for the amended C7 at the language-only legacy link of the
repository's own test suite (`http://cubically.tryitonline.net/`). -/
theorem C7_no_required_fields_amended_witness :
    Tio.LinkState.decode_v1
        (String.mk ("http://".data ++ ("cubically".data ++ ".tryitonline.net/".data))) =
      .ok { schema := .V1, domain := .TryItOnline, language := "cubically", code := "",
            input := "", args := [], debug := false } :=
  C7_no_required_fields_amended.1 "cubically" (by decide)

end SandboxLinks

namespace SandboxLinks

theorem urlParse_run (q : List Char) (hq : ∀ c ∈ q, c ≠ '#') :
    urlParse (String.mk ("https://ato.pxeger.com/run?".data ++ q)) =
      .ok ⟨"https".data, "ato.pxeger.com".data, "/run".data, some q, none⟩ := by
  have h0 : ("https://ato.pxeger.com/run?".data : List Char) ++ q =
      "https://".data ++ ("ato.pxeger.com/run?".data ++ q) := by
    rw [← List.append_assoc]
    rfl
  rw [h0, urlParse_https]
  have h1 : ("ato.pxeger.com/run?".data : List Char) ++ q =
      "ato.pxeger.com".data ++ '/' :: ("run?".data ++ q) := by
    rw [show ('/' :: ("run?".data ++ q) : List Char) = "/run?".data ++ q from rfl,
      ← List.append_assoc]
    rfl
  rw [urlParseFrom, h1,
    takeUntil_append_stop _ _ '/' _ (by decide) (by decide)]
  try dsimp only
  rw [if_neg (by decide)]
  rw [show ("ato.pxeger.com".data : List Char).map Char.toLower = "ato.pxeger.com".data
    from by decide]
  have h2 : ('/' :: ("run?".data ++ q) : List Char) = "/run".data ++ '?' :: q := by
    rw [show ('?' :: q : List Char) = "?".data ++ q from rfl, ← List.append_assoc]
    rfl
  rw [h2, takeUntil_append_stop _ _ '?' _ (by decide) (by decide)]
  simp only [List.cons_append, List.nil_append]
  try dsimp only
  rw [takeUntil_no_stop ['#'] q (by intro c hc; simpa using hq c hc)]

theorem queryPairs_one (k : Char) (v : List Char)
    (hk : k ≠ '&' ∧ k ≠ '=' ∧ k ≠ '%' ∧ k ≠ '+') (hv : ∀ c ∈ v, querySafe c) :
    queryPairs (k :: '=' :: v) = [([k], v)] := by
  rw [queryPairs, splitAllCh_no '&' _ (by
    intro x hx
    rcases List.mem_cons.mp hx with rfl | hx2
    · exact hk.1
    · rcases List.mem_cons.mp hx2 with rfl | hx3
      · decide
      · exact (hv x hx3).2.1)]
  rw [show (k :: '=' :: v : List Char) = [k] ++ '=' :: v from rfl]
  rw [List.filterMap]
  try dsimp only
  rw [if_neg (by simp), splitOnceCh_append '=' [k] v (by intro x hx; simp at hx; subst hx; exact hk.2.1)]
  try dsimp only
  rw [percentDecodePlus_plain [k] (by intro c hc; simp at hc; subst hc; exact ⟨hk.2.2.1, hk.2.2.2⟩),
    percentDecodePlus_plain v (fun c hc => ⟨(hv c hc).2.2.2.1, (hv c hc).2.2.2.2⟩)]
  rfl

theorem queryPairs_two (a b : List Char) (ha : ∀ c ∈ a, querySafe c)
    (hb : ∀ c ∈ b, querySafe c) :
    queryPairs (('0' :: '=' :: a) ++ '&' :: ('1' :: '=' :: b)) = [(['0'], a), (['1'], b)] := by
  rw [queryPairs, splitAllCh_append '&' _ _ (by
    intro x hx
    rcases List.mem_cons.mp hx with rfl | hx2
    · decide
    · rcases List.mem_cons.mp hx2 with rfl | hx3
      · decide
      · exact (ha x hx3).2.1)]
  rw [splitAllCh_no '&' _ (by
    intro x hx
    rcases List.mem_cons.mp hx with rfl | hx2
    · decide
    · rcases List.mem_cons.mp hx2 with rfl | hx3
      · decide
      · exact (hb x hx3).2.1)]
  rw [List.filterMap]
  try dsimp only
  rw [if_neg (by simp),
    show ('0' :: '=' :: a : List Char) = ['0'] ++ '=' :: a from rfl,
    splitOnceCh_append '=' ['0'] a (by decide)]
  try dsimp only
  rw [List.filterMap]
  try dsimp only
  rw [if_neg (by simp),
    show ('1' :: '=' :: b : List Char) = ['1'] ++ '=' :: b from rfl,
    splitOnceCh_append '=' ['1'] b (by decide)]
  try dsimp only
  rw [percentDecodePlus_plain ['0'] (by decide), percentDecodePlus_plain ['1'] (by decide),
    percentDecodePlus_plain a (fun c hc => ⟨(ha c hc).2.2.2.1, (ha c hc).2.2.2.2⟩),
    percentDecodePlus_plain b (fun c hc => ⟨(hb c hc).2.2.2.1, (hb c hc).2.2.2.2⟩)]
  rfl

end SandboxLinks

namespace SandboxLinks

theorem mem_two_head_safe (a : List Char) (k : Char) (hk : k ≠ '#')
    (ha : ∀ c ∈ a, querySafe c) : ∀ c ∈ (k :: '=' :: a), c ≠ '#' := by
  intro c hc
  rcases List.mem_cons.mp hc with rfl | hc
  · exact hk
  · rcases List.mem_cons.mp hc with rfl | hc
    · decide
    · exact (ha c hc).1

/-- Claim C4: a sandbox-A URL carrying both a `0=` and a `1=` query key is
rejected with `MultipleVersions`; the rejection is independent of the two
values (which may be arbitrary query-safe strings, valid base64 or not)
and of the decompressor, i.e. it happens before any base64 or DEFLATE
work, already in the query-pair scan. -/
theorem C4_multiple_versions (fl : DeflateImpl) (a b : String)
    (ha : ∀ c ∈ a.data, querySafe c) (hb : ∀ c ∈ b.data, querySafe c) :
    Ato.LinkState.decode fl
        (String.mk ("https://ato.pxeger.com/run?0=".data ++ (a.data ++ ("&1=".data ++ b.data)))) =
      .error .MultipleVersions ∧
    Ato.scanPairs none none [(['0'], a.data), (['1'], b.data)] =
      .error .MultipleVersions := by
  constructor
  · have hq : ∀ c ∈ ('0' :: '=' :: a.data) ++ '&' :: ('1' :: '=' :: b.data), c ≠ '#' := by
      intro c hc
      rcases List.mem_append.mp hc with hc | hc
      · exact mem_two_head_safe a.data '0' (by decide) ha c hc
      · rcases List.mem_cons.mp hc with rfl | hc
        · decide
        · exact mem_two_head_safe b.data '1' (by decide) hb c hc
    rw [show ("https://ato.pxeger.com/run?0=".data ++ (a.data ++ ("&1=".data ++ b.data))
          : List Char) =
        "https://ato.pxeger.com/run?".data ++
          (('0' :: '=' :: a.data) ++ '&' :: ('1' :: '=' :: b.data)) from rfl]
    rw [Ato.LinkState.decode, Ato.LinkState.decode_url, urlParse_run _ hq]
    dsimp only [Except.mapError]
    rw [queryPairs_two a.data b.data ha hb]
    rfl
  · rfl

/-- Witness for C4 with a failing decompressor and non-base64 values,
checking that neither is consulted. -/
theorem C4_multiple_versions_witness :
    Ato.LinkState.decode ⟨fun _ _ => [999], fun _ => .error "io"⟩
        (String.mk ("https://ato.pxeger.com/run?0=".data ++ ("~~".data ++ ("&1=".data ++ "!".data)))) =
      .error .MultipleVersions :=
  (C4_multiple_versions ⟨fun _ _ => [999], fun _ => .error "io"⟩ "~~" "!"
    (by decide) (by decide)).1

end SandboxLinks

namespace SandboxLinks

/-- Claim C5: for the sandbox-A schema value, a strict URL-safe no-pad
decode is attempted first; on failure, the bytes outside the union of the
URL-safe and standard alphabets are stripped and the decode retried
exactly once — if that retry also fails (with any error `e2`), the error
surfaced is the original strict-attempt error `e`; if the retry succeeds,
its result is what flows into decompression. -/
theorem C5_lenient_base64 (fl : DeflateImpl) (v : String) (e : B64Error)
    (hv : ∀ c ∈ v.data, querySafe c)
    (hstrict : urlSafeNoPadDecode (utf8Encode v.data) = .error e) :
    (∀ e2 : B64Error,
      urlSafeNoPadDecode ((utf8Encode v.data).filter Ato.tidyByte) = .error e2 →
      Ato.LinkState.decode fl
          (String.mk ("https://ato.pxeger.com/run?1=".data ++ v.data)) =
        .error (.Base64 e)) ∧
    (∀ d : List Nat,
      urlSafeNoPadDecode ((utf8Encode v.data).filter Ato.tidyByte) = .ok d →
      Ato.LinkState.decode_url fl
          (String.mk ("https://ato.pxeger.com/run?1=".data ++ v.data)) =
        (match fl.decompress d with
         | .ok buf => .ok (some (Ato.LinkSchema.V1, buf), none)
         | .error e2 => .error (.Deflate e2))) := by
  have hq := mem_two_head_safe v.data '1' (by decide) hv
  have hurl := urlParse_run ('1' :: '=' :: v.data) hq
  have hqp := queryPairs_one '1' v.data (by decide) hv
  have hre : ("https://ato.pxeger.com/run?1=".data ++ v.data : List Char) =
      "https://ato.pxeger.com/run?".data ++ ('1' :: '=' :: v.data) := rfl
  constructor
  · intro e2 he2
    rw [hre, Ato.LinkState.decode, Ato.LinkState.decode_url, hurl]
    dsimp only [Except.mapError]
    rw [hqp]
    rw [show Ato.scanPairs none none [(['1'], v.data)] =
      .ok (some (Ato.LinkSchema.V1, v.data), none) from rfl]
    dsimp only
    rw [hstrict, he2]
  · intro d hd
    rw [hre, Ato.LinkState.decode_url, hurl]
    dsimp only [Except.mapError]
    rw [hqp]
    rw [show Ato.scanPairs none none [(['1'], v.data)] =
      .ok (some (Ato.LinkSchema.V1, v.data), none) from rfl]
    dsimp only
    rw [hstrict, hd]
    rfl

/-- Witness for C5 at the value `~A`: the strict attempt fails with an
invalid byte at the tilde, the stripped retry fails with a length error,
and the surfaced error is the strict attempt's. -/
theorem C5_lenient_base64_witness :
    Ato.LinkState.decode idDeflate
        (String.mk ("https://ato.pxeger.com/run?1=".data ++ "~A".data)) =
      .error (.Base64 (.invalidByte 0 126)) :=
  (C5_lenient_base64 idDeflate "~A" (.invalidByte 0 126) (by decide) rfl).1 .invalidLength rfl

end SandboxLinks

namespace SandboxLinks

theorem b64UrlChar_querySafe : ∀ k, k < 64 → querySafe (b64UrlChar k) := by decide

theorem b64FieldChars_querySafe (s : String) : ∀ c ∈ Tio.b64FieldChars s, querySafe c := by
  intro c hc
  rcases b64Encode_mem b64UrlChar (utf8Encode s.data) (utf8Encode_lt256 s.data) c hc with
    ⟨k, hk, rfl⟩
  exact b64UrlChar_querySafe k hk

theorem b64FieldChars_ascii (s : String) : ∀ c ∈ Tio.b64FieldChars s, c.toNat < 0x80 := by
  intro c hc
  rcases b64Encode_mem b64UrlChar (utf8Encode s.data) (utf8Encode_lt256 s.data) c hc with
    ⟨k, hk, rfl⟩
  exact b64UrlChar_ascii k hk

theorem decode_field_encode (s : String) : Tio.decode_field (Tio.b64FieldChars s) = .ok s := by
  rw [Tio.decode_field, utf8Encode_ascii _ (b64FieldChars_ascii s)]
  rw [show urlSafeNoPadDecode ((Tio.b64FieldChars s).map Char.toNat) = .ok (utf8Encode s.data)
    from b64Decode_encode b64UrlChar b64UrlIdx b64UrlIdx_urlChar _ (utf8Encode_lt256 s.data)]
  dsimp only
  rw [utf8Decode_encode]

theorem splitAllCh_argsJoined (a : String) (t : List String) :
    splitAllCh '+' (Tio.b64FieldChars a ++ Tio.argsFragTail t) =
      Tio.b64FieldChars a :: t.map Tio.b64FieldChars := by
  induction t generalizing a with
  | nil =>
    rw [Tio.argsFragTail, List.append_nil, List.map_nil]
    exact splitAllCh_no '+' _ (fun c hc => (b64FieldChars_querySafe a c hc).2.2.2.2)
  | cons x t2 ih =>
    rw [Tio.argsFragTail, List.map_cons]
    rw [splitAllCh_append '+' _ _ (fun c hc => (b64FieldChars_querySafe a c hc).2.2.2.2)]
    rw [ih x]

theorem decodeArgsList_map (args : List String) :
    Tio.decodeArgsList (args.map Tio.b64FieldChars) = .ok args := by
  induction args with
  | nil => rfl
  | cons a t ih =>
    rw [List.map_cons, Tio.decodeArgsList, decode_field_encode a, ih]

theorem foldFields_code (acc : Tio.FieldsAcc) (v : List Char) (rest : List (List Char))
    (hacc : acc.code = none) (hv : ¬ '=' ∈ v) (c : String) (hd : Tio.decode_field v = .ok c) :
    Tio.foldFields acc (("code=".data ++ v) :: rest) =
      Tio.foldFields { acc with code := some c } rest := by
  rw [show ("code=".data ++ v : List Char) = "code".data ++ '=' :: v from rfl,
    Tio.foldFields, splitOnceCh_append '=' "code".data v (by decide)]
  dsimp only
  rw [if_neg hv, if_pos rfl, hacc, hd]

theorem foldFields_input (acc : Tio.FieldsAcc) (v : List Char) (rest : List (List Char))
    (hacc : acc.input = none) (hv : ¬ '=' ∈ v) (c : String) (hd : Tio.decode_field v = .ok c) :
    Tio.foldFields acc (("input=".data ++ v) :: rest) =
      Tio.foldFields { acc with input := some c } rest := by
  rw [show ("input=".data ++ v : List Char) = "input".data ++ '=' :: v from rfl,
    Tio.foldFields, splitOnceCh_append '=' "input".data v (by decide)]
  dsimp only
  rw [if_neg hv, if_neg (by decide), if_pos rfl, hacc, hd]

theorem foldFields_args (acc : Tio.FieldsAcc) (v : List Char) (rest : List (List Char))
    (hacc : acc.args = none) (hv : ¬ '=' ∈ v) (a : List String)
    (hd : Tio.decodeArgsList (splitAllCh '+' v) = .ok a) :
    Tio.foldFields acc (("args=".data ++ v) :: rest) =
      Tio.foldFields { acc with args := some a } rest := by
  rw [show ("args=".data ++ v : List Char) = "args".data ++ '=' :: v from rfl,
    Tio.foldFields, splitOnceCh_append '=' "args".data v (by decide)]
  dsimp only
  rw [if_neg hv, if_neg (by decide), if_neg (by decide), if_pos rfl, hacc, hd]

theorem foldFields_debug (acc : Tio.FieldsAcc) (rest : List (List Char))
    (hacc : acc.debug = none) :
    Tio.foldFields acc ("debug=on".data :: rest) =
      Tio.foldFields { acc with debug := some true } rest := by
  rw [show ("debug=on".data : List Char) = "debug".data ++ '=' :: "on".data from rfl,
    Tio.foldFields, splitOnceCh_append '=' "debug".data "on".data (by decide)]
  dsimp only
  rw [if_neg (by decide), if_neg (by decide), if_neg (by decide), if_neg (by decide),
    if_pos rfl, hacc]

end SandboxLinks

namespace SandboxLinks

theorem argsFragTail_props (t : List String) :
    ∀ c ∈ Tio.argsFragTail t, c ≠ '&' ∧ c ≠ '#' ∧ c ≠ '=' := by
  induction t with
  | nil => simp [Tio.argsFragTail]
  | cons x t2 ih =>
    intro c hc
    rw [Tio.argsFragTail] at hc
    rcases List.mem_cons.mp hc with rfl | hc
    · decide
    · rcases List.mem_append.mp hc with hc | hc
      · have h := b64FieldChars_querySafe x c hc
        exact ⟨h.2.1, h.1, h.2.2.1⟩
      · exact ih c hc

theorem foldFields_encoded (code input : String) (args : List String) (dbg : Bool) :
    Tio.foldFields ⟨none, none, none, none⟩
      (splitAllCh '&'
        ("code=".data ++ (Tio.b64FieldChars code ++ ("&input=".data ++ (Tio.b64FieldChars input ++
          (Tio.argsFrag args ++ (if dbg then "&debug=on".data else []))))))) =
      .ok ⟨some code, some input,
        (match args with | [] => none | a :: t => some (a :: t)),
        (if dbg then some true else none)⟩ := by
  have hcode : ∀ c ∈ Tio.b64FieldChars code, c ≠ '&' :=
    fun c hc => (b64FieldChars_querySafe code c hc).2.1
  have hinput : ∀ c ∈ Tio.b64FieldChars input, c ≠ '&' :=
    fun c hc => (b64FieldChars_querySafe input c hc).2.1
  have hfield1 : ∀ c ∈ ("code=".data ++ Tio.b64FieldChars code : List Char), c ≠ '&' := by
    intro c hc
    rcases List.mem_append.mp hc with hc | hc
    · have hlit : ∀ x ∈ ("code=".data : List Char), x ≠ '&' := by decide
      exact hlit c hc
    · exact hcode c hc
  have hveq : ¬ '=' ∈ Tio.b64FieldChars code :=
    fun hc => (b64FieldChars_querySafe code _ hc).2.2.1 rfl
  have hveqi : ¬ '=' ∈ Tio.b64FieldChars input :=
    fun hc => (b64FieldChars_querySafe input _ hc).2.2.1 rfl
  cases args with
  | nil =>
    cases dbg with
    | false =>
      rw [if_neg (by simp)]
      rw [show ("code=".data ++ (Tio.b64FieldChars code ++ ("&input=".data ++
          (Tio.b64FieldChars input ++ (Tio.argsFrag [] ++ []))))) =
        ("code=".data ++ Tio.b64FieldChars code) ++
          '&' :: ("input=".data ++ Tio.b64FieldChars input) from by
        simp only [Tio.argsFrag,
          show ("&input=".data : List Char) = '&' :: "input=".data from rfl,
          show ("&args=".data : List Char) = '&' :: "args=".data from rfl,
          show ("&debug=on".data : List Char) = '&' :: "debug=on".data from rfl,
          List.append_assoc, List.append_nil, List.nil_append, List.cons_append]]
      rw [splitAllCh_append '&' _ _ hfield1]
      rw [splitAllCh_no '&' _ (by
        intro c hc
        rcases List.mem_append.mp hc with hc | hc
        · have hlit : ∀ x ∈ ("input=".data : List Char), x ≠ '&' := by decide
          exact hlit c hc
        · exact hinput c hc)]
      rw [foldFields_code _ _ _ rfl hveq code (decode_field_encode code)]
      rw [foldFields_input _ _ _ rfl hveqi input (decode_field_encode input)]
      rfl
    | true =>
      rw [if_pos rfl]
      rw [show ("code=".data ++ (Tio.b64FieldChars code ++ ("&input=".data ++
          (Tio.b64FieldChars input ++ (Tio.argsFrag [] ++ "&debug=on".data))))) =
        ("code=".data ++ Tio.b64FieldChars code) ++
          '&' :: (("input=".data ++ Tio.b64FieldChars input) ++ '&' :: "debug=on".data) from by
        simp only [Tio.argsFrag,
          show ("&input=".data : List Char) = '&' :: "input=".data from rfl,
          show ("&args=".data : List Char) = '&' :: "args=".data from rfl,
          show ("&debug=on".data : List Char) = '&' :: "debug=on".data from rfl,
          List.append_assoc, List.append_nil, List.nil_append, List.cons_append]]
      rw [splitAllCh_append '&' _ _ hfield1]
      rw [splitAllCh_append '&' _ _ (by
        intro c hc
        rcases List.mem_append.mp hc with hc | hc
        · have hlit : ∀ x ∈ ("input=".data : List Char), x ≠ '&' := by decide
          exact hlit c hc
        · exact hinput c hc)]
      rw [splitAllCh_no '&' _ (by decide)]
      rw [foldFields_code _ _ _ rfl hveq code (decode_field_encode code)]
      rw [foldFields_input _ _ _ rfl hveqi input (decode_field_encode input)]
      rw [foldFields_debug _ _ rfl]
      rfl
  | cons a t =>
    have hjoined : ∀ c ∈ (Tio.b64FieldChars a ++ Tio.argsFragTail t : List Char), c ≠ '&' := by
      intro c hc
      rcases List.mem_append.mp hc with hc | hc
      · exact (b64FieldChars_querySafe a c hc).2.1
      · exact (argsFragTail_props t c hc).1
    have hfield3 : ∀ c ∈ ("args=".data ++ (Tio.b64FieldChars a ++ Tio.argsFragTail t) :
        List Char), c ≠ '&' := by
      intro c hc
      rcases List.mem_append.mp hc with hc | hc
      · have hlit : ∀ x ∈ ("args=".data : List Char), x ≠ '&' := by decide
        exact hlit c hc
      · exact hjoined c hc
    have hveqa : ¬ '=' ∈ (Tio.b64FieldChars a ++ Tio.argsFragTail t : List Char) := by
      intro hc
      rcases List.mem_append.mp hc with hc | hc
      · exact (b64FieldChars_querySafe a _ hc).2.2.1 rfl
      · exact (argsFragTail_props t _ hc).2.2 rfl
    have hargsd : Tio.decodeArgsList (splitAllCh '+'
        (Tio.b64FieldChars a ++ Tio.argsFragTail t)) = .ok (a :: t) := by
      rw [splitAllCh_argsJoined a t, show (Tio.b64FieldChars a :: t.map Tio.b64FieldChars :
        List (List Char)) = (a :: t).map Tio.b64FieldChars from rfl, decodeArgsList_map]
    cases dbg with
    | false =>
      rw [if_neg (by simp)]
      rw [show ("code=".data ++ (Tio.b64FieldChars code ++ ("&input=".data ++
          (Tio.b64FieldChars input ++ (Tio.argsFrag (a :: t) ++ []))))) =
        ("code=".data ++ Tio.b64FieldChars code) ++
          '&' :: (("input=".data ++ Tio.b64FieldChars input) ++
            '&' :: ("args=".data ++ (Tio.b64FieldChars a ++ Tio.argsFragTail t))) from by
        simp only [Tio.argsFrag,
          show ("&input=".data : List Char) = '&' :: "input=".data from rfl,
          show ("&args=".data : List Char) = '&' :: "args=".data from rfl,
          show ("&debug=on".data : List Char) = '&' :: "debug=on".data from rfl,
          List.append_assoc, List.append_nil, List.nil_append, List.cons_append]]
      rw [splitAllCh_append '&' _ _ hfield1]
      rw [splitAllCh_append '&' _ _ (by
        intro c hc
        rcases List.mem_append.mp hc with hc | hc
        · have hlit : ∀ x ∈ ("input=".data : List Char), x ≠ '&' := by decide
          exact hlit c hc
        · exact hinput c hc)]
      rw [splitAllCh_no '&' _ hfield3]
      rw [foldFields_code _ _ _ rfl hveq code (decode_field_encode code)]
      rw [foldFields_input _ _ _ rfl hveqi input (decode_field_encode input)]
      rw [foldFields_args _ _ _ rfl hveqa (a :: t) hargsd]
      rfl
    | true =>
      rw [if_pos rfl]
      rw [show ("code=".data ++ (Tio.b64FieldChars code ++ ("&input=".data ++
          (Tio.b64FieldChars input ++ (Tio.argsFrag (a :: t) ++ "&debug=on".data))))) =
        ("code=".data ++ Tio.b64FieldChars code) ++
          '&' :: (("input=".data ++ Tio.b64FieldChars input) ++
            '&' :: (("args=".data ++ (Tio.b64FieldChars a ++ Tio.argsFragTail t)) ++
              '&' :: "debug=on".data)) from by
        simp only [Tio.argsFrag,
          show ("&input=".data : List Char) = '&' :: "input=".data from rfl,
          show ("&args=".data : List Char) = '&' :: "args=".data from rfl,
          show ("&debug=on".data : List Char) = '&' :: "debug=on".data from rfl,
          List.append_assoc, List.append_nil, List.nil_append, List.cons_append]]
      rw [splitAllCh_append '&' _ _ hfield1]
      rw [splitAllCh_append '&' _ _ (by
        intro c hc
        rcases List.mem_append.mp hc with hc | hc
        · have hlit : ∀ x ∈ ("input=".data : List Char), x ≠ '&' := by decide
          exact hlit c hc
        · exact hinput c hc)]
      rw [splitAllCh_append '&' _ _ hfield3]
      rw [splitAllCh_no '&' _ (by decide)]
      rw [foldFields_code _ _ _ rfl hveq code (decode_field_encode code)]
      rw [foldFields_input _ _ _ rfl hveqi input (decode_field_encode input)]
      rw [foldFields_args _ _ _ rfl hveqa (a :: t) hargsd]
      rw [foldFields_debug _ _ rfl]
      rfl

end SandboxLinks

namespace SandboxLinks

theorem argsFrag_no_hash (args : List String) : ∀ c ∈ Tio.argsFrag args, c ≠ '#' := by
  cases args with
  | nil => simp [Tio.argsFrag]
  | cons a t =>
    intro c hc
    rw [Tio.argsFrag] at hc
    rcases List.mem_append.mp hc with hc | hc
    · have hlit : ∀ x ∈ ("&args=".data : List Char), x ≠ '#' := by decide
      exact hlit c hc
    · rcases List.mem_append.mp hc with hc | hc
      · exact (b64FieldChars_querySafe a c hc).1
      · exact (argsFragTail_props t c hc).2.1

theorem fieldsFrag_no_hash (code input : String) (args : List String) (dbg : Bool) :
    ∀ c ∈ ("code=".data ++ (Tio.b64FieldChars code ++ ("&input=".data ++
      (Tio.b64FieldChars input ++ (Tio.argsFrag args ++
        (if dbg then "&debug=on".data else [])))))), c ≠ '#' := by
  intro c hc
  simp only [List.mem_append] at hc
  rcases hc with hc | hc | hc | hc | hc | hc
  · have hlit : ∀ x ∈ ("code=".data : List Char), x ≠ '#' := by decide
    exact hlit c hc
  · exact (b64FieldChars_querySafe code c hc).1
  · have hlit : ∀ x ∈ ("&input=".data : List Char), x ≠ '#' := by decide
    exact hlit c hc
  · exact (b64FieldChars_querySafe input c hc).1
  · exact argsFrag_no_hash args c hc
  · cases dbg with
    | false => simp at hc
    | true =>
      have hlit : ∀ x ∈ ("&debug=on".data : List Char), x ≠ '#' := by decide
      exact hlit c (by simpa using hc)

theorem decode_v1_tio (lang : String) (hl : ∀ c ∈ lang.data, hostSafe c) (F : List Char) :
    Tio.LinkState.decode_v1 (String.mk ("https://tio.run/#".data ++ (lang.data ++ '#' :: F))) =
      (match Tio.foldFields ⟨none, none, none, none⟩ (splitAllCh '&' F) with
       | .error e => .error e
       | .ok acc =>
         .ok { schema := .V1, domain := .Tio, language := lang, code := acc.code.getD "",
               input := acc.input.getD "", args := acc.args.getD [],
               debug := acc.debug.getD false }) := by
  rw [Tio.LinkState.decode_v1]
  rw [show urlParse (String.mk ("https://tio.run/#".data ++ (lang.data ++ '#' :: F))) =
    .ok ⟨"https".data, "tio.run".data, "/".data, none, some (lang.data ++ '#' :: F)⟩ from rfl]
  dsimp only [Except.mapError]
  rw [if_pos rfl]
  rw [show dropLiteral "/nexus/".data ("/".data : List Char) = none from rfl]
  dsimp only [Option.getD]
  rw [splitOnceCh_append '#' lang.data F
    (fun c hc => char_ne_of_toNat_ne (hostSafe_toNat c (hl c hc)).2.2.2.1)]
  dsimp only [Option.isSome]
  rfl

end SandboxLinks


namespace SandboxLinks

theorem decode_v1_nexus (lang : String) (hl : ∀ c ∈ lang.data, hostSafe c) (F : List Char)
    (hF : ∀ c ∈ F, c ≠ '#') :
    Tio.LinkState.decode_v1
        (String.mk ("https://tio.run/nexus/".data ++ (lang.data ++ '#' :: F))) =
      (match Tio.foldFields ⟨none, none, none, none⟩ (splitAllCh '&' F) with
       | .error e => .error e
       | .ok acc =>
         .ok { schema := .V1, domain := .TioNexus, language := lang, code := acc.code.getD "",
               input := acc.input.getD "", args := acc.args.getD [],
               debug := acc.debug.getD false }) := by
  have hpath : ∀ c ∈ ('/' :: ("nexus/".data ++ lang.data) : List Char),
      c ∉ (['?', '#'] : List Char) := by
    intro c hc
    rcases List.mem_cons.mp hc with rfl | hc
    · decide
    · rcases List.mem_append.mp hc with hc | hc
      · have hlit : ∀ x ∈ ("nexus/".data : List Char), x ∉ (['?', '#'] : List Char) := by decide
        exact hlit c hc
      · have ht := hostSafe_toNat c (hl c hc)
        simp only [List.mem_cons, List.not_mem_nil, or_false, not_or]
        exact ⟨char_ne_of_toNat_ne ht.2.2.1, char_ne_of_toNat_ne ht.2.2.2.1⟩
  have hu : urlParse (String.mk ("https://tio.run/nexus/".data ++ (lang.data ++ '#' :: F))) =
      .ok ⟨"https".data, "tio.run".data, '/' :: ("nexus/".data ++ lang.data), none, some F⟩ := by
    rw [show ("https://tio.run/nexus/".data ++ (lang.data ++ '#' :: F) : List Char) =
      "https://".data ++ ("tio.run".data ++ '/' :: ("nexus/".data ++ (lang.data ++ '#' :: F)))
      from rfl]
    rw [urlParse_https, urlParseFrom]
    rw [takeUntil_append_stop _ "tio.run".data '/' _ (by decide) (by decide)]
    try dsimp only
    rw [if_neg (by decide),
      show ("tio.run".data : List Char).map Char.toLower = "tio.run".data from by decide]
    rw [show ('/' :: ("nexus/".data ++ (lang.data ++ '#' :: F)) : List Char) =
      ('/' :: ("nexus/".data ++ lang.data)) ++ '#' :: F from by
      simp only [List.append_assoc, List.cons_append]]
    rw [takeUntil_append_stop _ _ '#' _ hpath (by decide)]
    try dsimp only
    rfl
  rw [Tio.LinkState.decode_v1, hu]
  dsimp only [Except.mapError]
  rw [if_pos rfl]
  rw [show ('/' :: ("nexus/".data ++ lang.data) : List Char) = "/nexus/".data ++ lang.data
    from rfl]
  rw [dropLiteral_append "/nexus/".data lang.data]
  dsimp only [Option.getD]
  rw [splitOnceCh_none '#' F (fun x hx => hF x hx)]
  try dsimp only [Option.isSome]
  try rfl

theorem decode_v1_tryit (lang : String) (hl : ∀ c ∈ lang.data, hostSafe c) (F : List Char)
    (hF : ∀ c ∈ F, c ≠ '#') :
    Tio.LinkState.decode_v1
        (String.mk (("http://".data ++ (lang.data ++ ".tryitonline.net/".data)) ++ '#' :: F)) =
      (match Tio.foldFields ⟨none, none, none, none⟩ (splitAllCh '&' F) with
       | .error e => .error e
       | .ok acc =>
         .ok { schema := .V1, domain := .TryItOnline, language := lang,
               code := acc.code.getD "", input := acc.input.getD "", args := acc.args.getD [],
               debug := acc.debug.getD false }) := by
  have hlen : (".tryitonline.net".data : List Char).length = 16 := rfl
  have h1 : (lang.data ++ ".tryitonline.net".data : List Char) ≠ "tio.run".data := by
    intro h
    have hlh := congrArg List.length h
    simp only [List.length_append, hlen, show ("tio.run".data : List Char).length = 7 from rfl]
      at hlh
    omega
  have h2 : (lang.data ++ ".tryitonline.net".data : List Char) ≠ "tryitonline.net".data := by
    intro h
    have hlh := congrArg List.length h
    simp only [List.length_append, hlen,
      show ("tryitonline.net".data : List Char).length = 15 from rfl] at hlh
    omega
  have hnd : ∀ c ∈ lang.data ++ ".tryitonline.net".data, c ∉ (['/', '?', '#'] : List Char) := by
    intro c hc
    rcases List.mem_append.mp hc with hc | hc
    · exact hostSafe_not_delim c (hl c hc)
    · have hconc : ∀ x ∈ (".tryitonline.net".data : List Char),
          x ∉ (['/', '?', '#'] : List Char) := by decide
      exact hconc c hc
  have hu : urlParse
      (String.mk (("http://".data ++ (lang.data ++ ".tryitonline.net/".data)) ++ '#' :: F)) =
      .ok ⟨"http".data, lang.data ++ ".tryitonline.net".data, ['/'], none, some F⟩ := by
    rw [show ((("http://".data ++ (lang.data ++ ".tryitonline.net/".data)) ++ '#' :: F)
        : List Char) =
      "http://".data ++ ((lang.data ++ ".tryitonline.net".data) ++ '/' :: '#' :: F) from by
      simp only [List.append_assoc,
        show (".tryitonline.net/".data : List Char) = ".tryitonline.net".data ++ ['/']
          from rfl, List.cons_append, List.nil_append]]
    rw [urlParse_http, urlParseFrom]
    rw [takeUntil_append_stop _ _ '/' _ hnd (by decide)]
    try dsimp only
    rw [if_neg (by simp)]
    rw [List.map_append, map_toLower_fixed lang.data
      (fun c hc => (hostSafe_toNat c (hl c hc)).2.2.2.2.2.2.2.2.2),
      show (".tryitonline.net".data : List Char).map Char.toLower = ".tryitonline.net".data
        from by decide]
    try dsimp only
    rfl
  rw [Tio.LinkState.decode_v1, hu]
  dsimp only [Except.mapError]
  rw [if_neg h1, if_neg h2, removeSuffix_append]
  dsimp only [Option.getD]
  rw [splitOnceCh_none '#' F (fun x hx => hF x hx)]
  try dsimp only [Option.isSome]
  try rfl

theorem decode_v1_tryit_empty (F : List Char) (hF : ∀ c ∈ F, c ≠ '#') :
    Tio.LinkState.decode_v1 (String.mk ("http://tryitonline.net/".data ++ '#' :: F)) =
      (match Tio.foldFields ⟨none, none, none, none⟩ (splitAllCh '&' F) with
       | .error e => .error e
       | .ok acc =>
         .ok { schema := .V1, domain := .TryItOnline, language := "",
               code := acc.code.getD "", input := acc.input.getD "", args := acc.args.getD [],
               debug := acc.debug.getD false }) := by
  have hu : urlParse (String.mk ("http://tryitonline.net/".data ++ '#' :: F)) =
      .ok ⟨"http".data, "tryitonline.net".data, ['/'], none, some F⟩ := by
    rw [show ("http://tryitonline.net/".data ++ '#' :: F : List Char) =
      "http://".data ++ ("tryitonline.net".data ++ '/' :: '#' :: F) from rfl]
    rw [urlParse_http, urlParseFrom]
    rw [takeUntil_append_stop _ "tryitonline.net".data '/' _ (by decide) (by decide)]
    try dsimp only
    rw [if_neg (by decide),
      show ("tryitonline.net".data : List Char).map Char.toLower = "tryitonline.net".data
        from by decide]
    try dsimp only
    rfl
  rw [Tio.LinkState.decode_v1, hu]
  dsimp only [Except.mapError]
  rw [if_neg (by decide), if_pos rfl]
  dsimp only [Option.getD]
  rw [splitOnceCh_none '#' F (fun x hx => hF x hx)]
  try dsimp only [Option.isSome]
  try rfl

end SandboxLinks

namespace SandboxLinks

theorem tio_roundtrip (s : Tio.LinkState) (hv : s.Valid) :
    Tio.LinkState.decode_v1 (Tio.LinkState.encode_v1 s) = .ok s := by
  obtain ⟨sch, dom, lang, code, input, args, dbg⟩ := s
  obtain ⟨hsch, hlang⟩ := hv
  dsimp only at hsch hlang
  subst hsch
  cases dom with
  | Tio =>
    have he : Tio.LinkState.encode_v1 ⟨.V1, .Tio, lang, code, input, args, dbg⟩ =
        String.mk ("https://tio.run/#".data ++ (lang.data ++ '#' ::
          ("code=".data ++ (Tio.b64FieldChars code ++ ("&input=".data ++
            (Tio.b64FieldChars input ++ (Tio.argsFrag args ++
              (if dbg then "&debug=on".data else [])))))))) := by
      rw [Tio.LinkState.encode_v1]
      try dsimp only
      apply congrArg String.mk
      simp only [show ("#code=".data : List Char) = '#' :: "code=".data from rfl,
        List.append_assoc, List.cons_append]
    rw [he, decode_v1_tio lang hlang, foldFields_encoded]
    cases args <;> cases dbg <;> rfl
  | TioNexus =>
    have he : Tio.LinkState.encode_v1 ⟨.V1, .TioNexus, lang, code, input, args, dbg⟩ =
        String.mk ("https://tio.run/nexus/".data ++ (lang.data ++ '#' ::
          ("code=".data ++ (Tio.b64FieldChars code ++ ("&input=".data ++
            (Tio.b64FieldChars input ++ (Tio.argsFrag args ++
              (if dbg then "&debug=on".data else [])))))))) := by
      rw [Tio.LinkState.encode_v1]
      try dsimp only
      apply congrArg String.mk
      simp only [show ("#code=".data : List Char) = '#' :: "code=".data from rfl,
        List.append_assoc, List.cons_append]
    rw [he, decode_v1_nexus lang hlang _ (fieldsFrag_no_hash code input args dbg),
      foldFields_encoded]
    cases args <;> cases dbg <;> rfl
  | TryItOnline =>
    by_cases hde : lang = ""
    · subst hde
      have he : Tio.LinkState.encode_v1 ⟨.V1, .TryItOnline, "", code, input, args, dbg⟩ =
          String.mk ("http://tryitonline.net/".data ++ '#' ::
            ("code=".data ++ (Tio.b64FieldChars code ++ ("&input=".data ++
              (Tio.b64FieldChars input ++ (Tio.argsFrag args ++
                (if dbg then "&debug=on".data else []))))))) := by
        rw [Tio.LinkState.encode_v1]
        try dsimp only
        rw [if_pos rfl]
        apply congrArg String.mk
        simp only [show ("#code=".data : List Char) = '#' :: "code=".data from rfl,
          List.append_assoc, List.cons_append]
      rw [he, decode_v1_tryit_empty _ (fieldsFrag_no_hash code input args dbg),
        foldFields_encoded]
      cases args <;> cases dbg <;> rfl
    · have he : Tio.LinkState.encode_v1 ⟨.V1, .TryItOnline, lang, code, input, args, dbg⟩ =
          String.mk (("http://".data ++ (lang.data ++ ".tryitonline.net/".data)) ++ '#' ::
            ("code=".data ++ (Tio.b64FieldChars code ++ ("&input=".data ++
              (Tio.b64FieldChars input ++ (Tio.argsFrag args ++
                (if dbg then "&debug=on".data else []))))))) := by
        rw [Tio.LinkState.encode_v1]
        try dsimp only
        rw [if_neg hde]
        apply congrArg String.mk
        simp only [show ("#code=".data : List Char) = '#' :: "code=".data from rfl,
          List.append_assoc, List.cons_append]
      rw [he, decode_v1_tryit lang hlang _ (fieldsFrag_no_hash code input args dbg),
        foldFields_encoded]
      cases args <;> cases dbg <;> rfl

end SandboxLinks

namespace SandboxLinks

theorem mpWriteStr_lt256 (b : List Nat) (h : ∀ x ∈ b, x < 256) :
    ∀ x ∈ mpWriteStr b, x < 256 := by
  intro x hx
  rw [mpWriteStr] at hx
  split_ifs at hx with h1 h2 h3
  · rcases List.mem_cons.mp hx with rfl | hx
    · omega
    · exact h x hx
  · rcases List.mem_cons.mp hx with rfl | hx
    · omega
    rcases List.mem_cons.mp hx with rfl | hx
    · omega
    · exact h x hx
  · rcases List.mem_cons.mp hx with rfl | hx
    · omega
    rcases List.mem_cons.mp hx with rfl | hx
    · omega
    rcases List.mem_cons.mp hx with rfl | hx
    · omega
    · exact h x hx
  · rcases List.mem_cons.mp hx with rfl | hx
    · omega
    rcases List.mem_cons.mp hx with rfl | hx
    · omega
    rcases List.mem_cons.mp hx with rfl | hx
    · omega
    rcases List.mem_cons.mp hx with rfl | hx
    · omega
    rcases List.mem_cons.mp hx with rfl | hx
    · omega
    · exact h x hx

theorem mpWriteStrs_lt256 (fields : List (List Nat)) (h : ∀ f ∈ fields, ∀ x ∈ f, x < 256) :
    ∀ x ∈ mpWriteStrs fields, x < 256 := by
  induction fields with
  | nil => intro x hx; simp [mpWriteStrs] at hx
  | cons f t ih =>
    intro x hx
    rw [mpWriteStrs] at hx
    rcases List.mem_append.mp hx with hx | hx
    · exact mpWriteStr_lt256 f (h f (List.mem_cons_self f t)) x hx
    · exact ih (fun g hg => h g (List.mem_cons_of_mem f hg)) x hx

theorem serialize_mp_lt256 (s : Ato.LinkState) : ∀ b ∈ s.serialize_mp, b < 256 := by
  rw [Ato.LinkState.serialize_mp]
  have hfields : ∀ fs : List String, ∀ b ∈ mpWriteStrArray (fs.map (fun f => utf8Encode f.data)),
      fs.length ≤ 15 → b < 256 := by
    intro fs b hb hle
    rw [mpWriteStrArray] at hb
    rcases List.mem_cons.mp hb with rfl | hb
    · rw [List.length_map]; omega
    · refine mpWriteStrs_lt256 _ ?_ b hb
      intro f hf
      rcases List.mem_map.mp hf with ⟨g, _, rfl⟩
      exact utf8Encode_lt256 g.data
  cases s.schema with
  | V0 =>
    intro b hb
    exact hfields _ b hb (by simp)
  | V1 =>
    intro b hb
    exact hfields _ b hb (by simp)

theorem mpReadStr_write (b : List Nat) (cs : List Char) (hd : utf8Decode b = some cs)
    (hlen : b.length < 2 ^ 32) (rest : List Nat) :
    mpReadStr (mpWriteStr b ++ rest) = .ok (String.mk cs, rest) := by
  rw [mpWriteStr]
  by_cases h1 : b.length < 32
  · rw [if_pos h1]
    rw [show ((0xA0 + b.length) :: b) ++ rest = (0xA0 + b.length) :: (b ++ rest) from rfl]
    rw [mpReadStr]
    try dsimp only
    rw [mpReadStrTail.eq_def, if_pos (by omega)]
    rw [show 0xA0 + b.length - 0xA0 = b.length from by omega]
    rw [mpTakeStr, if_pos (by rw [List.length_append]; omega)]
    rw [List.take_left, List.drop_left, hd]
  · rw [if_neg h1]
    by_cases h2 : b.length < 0x100
    · rw [if_pos h2]
      rw [show (0xD9 :: b.length :: b) ++ rest = 0xD9 :: b.length :: (b ++ rest) from rfl]
      rw [mpReadStr]
      try dsimp only
      rw [mpReadStrTail.eq_def, if_neg (by omega), if_pos rfl]
      try dsimp only
      rw [mpTakeStr, if_pos (by rw [List.length_append]; omega)]
      rw [List.take_left, List.drop_left, hd]
    · rw [if_neg h2]
      by_cases h3 : b.length < 0x10000
      · rw [if_pos h3]
        rw [show (0xDA :: b.length / 0x100 :: b.length % 0x100 :: b) ++ rest =
          0xDA :: b.length / 0x100 :: b.length % 0x100 :: (b ++ rest) from rfl]
        rw [mpReadStr]
        try dsimp only
        rw [mpReadStrTail.eq_def, if_neg (by omega), if_neg (by omega), if_pos rfl]
        try dsimp only
        rw [show b.length / 0x100 * 0x100 + b.length % 0x100 = b.length from by omega]
        rw [mpTakeStr, if_pos (by rw [List.length_append]; omega)]
        rw [List.take_left, List.drop_left, hd]
      · rw [if_neg h3]
        rw [show (0xDB :: b.length / 0x1000000 % 0x100 :: b.length / 0x10000 % 0x100 ::
            b.length / 0x100 % 0x100 :: b.length % 0x100 :: b) ++ rest =
          0xDB :: b.length / 0x1000000 % 0x100 :: b.length / 0x10000 % 0x100 ::
            b.length / 0x100 % 0x100 :: b.length % 0x100 :: (b ++ rest) from rfl]
        rw [mpReadStr]
        try dsimp only
        rw [mpReadStrTail.eq_def, if_neg (by omega), if_neg (by omega), if_neg (by omega), if_pos rfl]
        try dsimp only
        rw [show b.length / 0x1000000 % 0x100 * 0x1000000 + b.length / 0x10000 % 0x100 *
            0x10000 + b.length / 0x100 % 0x100 * 0x100 + b.length % 0x100 = b.length from by
          omega]
        rw [mpTakeStr, if_pos (by rw [List.length_append]; omega)]
        rw [List.take_left, List.drop_left, hd]

theorem mpReadStrs_write (fields : List String)
    (hlen : ∀ f ∈ fields, (utf8Encode f.data).length < 2 ^ 32) (rest : List Nat) :
    mpReadStrs fields.length (mpWriteStrs (fields.map (fun f => utf8Encode f.data)) ++ rest) =
      .ok (fields, rest) := by
  induction fields generalizing rest with
  | nil => rfl
  | cons f t ih =>
    rw [List.map_cons, mpWriteStrs, List.append_assoc]
    rw [show (f :: t).length = t.length + 1 from rfl]
    rw [mpReadStrs]
    rw [mpReadStr_write (utf8Encode f.data) f.data (utf8Decode_encode f.data)
      (hlen f (List.mem_cons_self f t)) _]
    try dsimp only
    rw [ih (fun g hg => hlen g (List.mem_cons_of_mem f hg)) rest]

theorem mpReadStrArray_write (n : Nat) (fields : List String) (hn : fields.length = n)
    (har : n ≤ 15) (hlen : ∀ f ∈ fields, (utf8Encode f.data).length < 2 ^ 32) :
    mpReadStrArray n (mpWriteStrArray (fields.map (fun f => utf8Encode f.data))) =
      .ok fields := by
  subst hn
  rw [mpWriteStrArray, List.length_map]
  rw [mpReadStrArray]
  try dsimp only
  rw [mpReadStrArrayTail.eq_def, if_pos (by omega)]
  rw [show 0x90 + fields.length - 0x90 = fields.length from by omega, if_pos rfl]
  rw [← List.append_nil (mpWriteStrs (fields.map (fun f => utf8Encode f.data)))]
  rw [mpReadStrs_write fields hlen []]
  rfl

end SandboxLinks

namespace SandboxLinks

theorem deserialize_serialize (s : Ato.LinkState) (hv : s.Valid) :
    Ato.LinkState.deserialize_mp s.schema s.serialize_mp = .ok s := by
  obtain ⟨sch, language, options, header, header_encoding, code, code_encoding, footer,
    footer_encoding, program_arguments, input, input_encoding⟩ := s
  obtain ⟨h0, hlen⟩ := hv
  try dsimp only at h0 hlen ⊢
  cases sch with
  | V0 =>
    obtain ⟨ho, hp⟩ := h0 rfl
    try dsimp only at ho hp
    subst ho
    subst hp
    rw [Ato.LinkState.serialize_mp]
    try dsimp only
    rw [Ato.LinkState.deserialize_mp]
    try dsimp only
    rw [mpReadStrArray_write 9
      [language, header, header_encoding, code, code_encoding, footer, footer_encoding,
        input, input_encoding] rfl (by omega)
      (by
        intro f hf
        apply hlen f
        simp only [List.mem_cons, List.not_mem_nil, or_false] at hf ⊢
        tauto)]
  | V1 =>
    rw [Ato.LinkState.serialize_mp]
    try dsimp only
    rw [Ato.LinkState.deserialize_mp]
    try dsimp only
    rw [mpReadStrArray_write 11
      [language, options, header, header_encoding, code, code_encoding, footer,
        footer_encoding, program_arguments, input, input_encoding] rfl (by omega) hlen]

end SandboxLinks

namespace SandboxLinks

theorem ato_decode_url_encoded (fl : DeflateImpl) (schema : Ato.LinkSchema)
    (payload : List Nat) (level : Nat)
    (hinv : fl.decompress (fl.compress level payload) = .ok payload)
    (hcb : ∀ b ∈ fl.compress level payload, b < 256) :
    Ato.LinkState.decode_url fl (Ato.LinkState.encode_url fl schema payload level) =
      .ok (some (schema, payload), none) := by
  have hmem := b64Encode_mem b64UrlChar (fl.compress level payload) hcb
  have hqs : ∀ c ∈ urlSafeNoPadEncode (fl.compress level payload), querySafe c := by
    intro c hc
    rcases hmem c hc with ⟨k, hk, rfl⟩
    exact b64UrlChar_querySafe k hk
  have hascii : ∀ c ∈ urlSafeNoPadEncode (fl.compress level payload), c.toNat < 0x80 := by
    intro c hc
    rcases hmem c hc with ⟨k, hk, rfl⟩
    exact b64UrlChar_ascii k hk
  cases schema with
  | V0 =>
    rw [Ato.LinkState.encode_url]
    try dsimp only
    rw [show ((Ato.RUN_URL ++ "?").data : List Char) = "https://ato.pxeger.com/run?".data
      from rfl]
    rw [show ("0=".data ++ urlSafeNoPadEncode (fl.compress level payload) : List Char) =
      '0' :: '=' :: urlSafeNoPadEncode (fl.compress level payload) from rfl]
    rw [Ato.LinkState.decode_url]
    rw [urlParse_run ('0' :: '=' :: urlSafeNoPadEncode (fl.compress level payload)) (by
      intro c hc
      rcases List.mem_cons.mp hc with rfl | hc
      · decide
      rcases List.mem_cons.mp hc with rfl | hc
      · decide
      · exact (hqs c hc).1)]
    dsimp only [Except.mapError]
    rw [queryPairs_one '0' _ (by decide) hqs]
    rw [show Ato.scanPairs none none
        [(['0'], urlSafeNoPadEncode (fl.compress level payload))] =
      .ok (some (.V0, urlSafeNoPadEncode (fl.compress level payload)), none) from rfl]
    try dsimp only
    rw [utf8Encode_ascii _ hascii]
    rw [show urlSafeNoPadDecode
        ((urlSafeNoPadEncode (fl.compress level payload)).map Char.toNat) =
      .ok (fl.compress level payload) from
      b64Decode_encode b64UrlChar b64UrlIdx b64UrlIdx_urlChar _ hcb]
    try dsimp only
    rw [hinv]
    rfl
  | V1 =>
    rw [Ato.LinkState.encode_url]
    try dsimp only
    rw [show ((Ato.RUN_URL ++ "?").data : List Char) = "https://ato.pxeger.com/run?".data
      from rfl]
    rw [show ("1=".data ++ urlSafeNoPadEncode (fl.compress level payload) : List Char) =
      '1' :: '=' :: urlSafeNoPadEncode (fl.compress level payload) from rfl]
    rw [Ato.LinkState.decode_url]
    rw [urlParse_run ('1' :: '=' :: urlSafeNoPadEncode (fl.compress level payload)) (by
      intro c hc
      rcases List.mem_cons.mp hc with rfl | hc
      · decide
      rcases List.mem_cons.mp hc with rfl | hc
      · decide
      · exact (hqs c hc).1)]
    dsimp only [Except.mapError]
    rw [queryPairs_one '1' _ (by decide) hqs]
    rw [show Ato.scanPairs none none
        [(['1'], urlSafeNoPadEncode (fl.compress level payload))] =
      .ok (some (.V1, urlSafeNoPadEncode (fl.compress level payload)), none) from rfl]
    try dsimp only
    rw [utf8Encode_ascii _ hascii]
    rw [show urlSafeNoPadDecode
        ((urlSafeNoPadEncode (fl.compress level payload)).map Char.toNat) =
      .ok (fl.compress level payload) from
      b64Decode_encode b64UrlChar b64UrlIdx b64UrlIdx_urlChar _ hcb]
    try dsimp only
    rw [hinv]
    rfl

end SandboxLinks

namespace SandboxLinks

theorem ato_roundtrip (fl : DeflateImpl)
    (hinv : ∀ level d, (∀ b ∈ d, b < 256) → fl.decompress (fl.compress level d) = .ok d)
    (hcb : ∀ level d, (∀ b ∈ d, b < 256) → ∀ b ∈ fl.compress level d, b < 256)
    (s : Ato.LinkState) (hv : s.Valid) :
    Ato.LinkState.decode fl (Ato.LinkState.encode fl s) = .ok s := by
  rw [Ato.LinkState.encode, Ato.LinkState.decode]
  rw [ato_decode_url_encoded fl s.schema s.serialize_mp compressionBest
    (hinv compressionBest s.serialize_mp (serialize_mp_lt256 s))
    (hcb compressionBest s.serialize_mp (serialize_mp_lt256 s))]
  try dsimp only
  rw [deserialize_serialize s hv]

end SandboxLinks

namespace SandboxLinks

/-- **C1**: for every raw-DEFLATE implementation satisfying the inverse
and byte-preservation laws of the real library, and every valid raw link
state of either sandbox — sandbox A (schema V0 or V1, where a valid V0
state has empty `options` and `program_arguments` and every field fits
the `u32` MessagePack length) and sandbox B (any domain variant, with a
URL-plain language id) — decoding the URL produced by encoding the state
yields a state equal to it field for field. -/
theorem C1_roundtrip (fl : DeflateImpl)
    (hinv : ∀ level d, (∀ b ∈ d, b < 256) → fl.decompress (fl.compress level d) = .ok d)
    (hcb : ∀ level d, (∀ b ∈ d, b < 256) → ∀ b ∈ fl.compress level d, b < 256) :
    (∀ s : Ato.LinkState, s.Valid →
      Ato.LinkState.decode fl (Ato.LinkState.encode fl s) = .ok s) ∧
    (∀ s : Tio.LinkState, s.Valid →
      Tio.LinkState.decode_v1 (Tio.LinkState.encode_v1 s) = .ok s) :=
  ⟨fun s hv => ato_roundtrip fl hinv hcb s hv, fun s hv => tio_roundtrip s hv⟩

/-- Witness for C1: the round trip evaluated at the identity compressor
(which satisfies both compressor laws definitionally) on concrete valid
states of both sandboxes. -/
theorem C1_roundtrip_witness :
    Ato.LinkState.decode idDeflate (Ato.LinkState.encode idDeflate
      { schema := .V1, language := "python", code := "print(1)" }) =
      .ok { schema := .V1, language := "python", code := "print(1)" } ∧
    Tio.LinkState.decode_v1 (Tio.LinkState.encode_v1
      { schema := .V1, domain := .Tio, language := "apl", code := "f", input := "x",
        args := ["-a"], debug := true }) =
      .ok { schema := .V1, domain := .Tio, language := "apl", code := "f", input := "x",
            args := ["-a"], debug := true } :=
  ⟨(C1_roundtrip idDeflate (fun _ _ _ => rfl) (fun _ _ h => h)).1 _ (by decide),
   (C1_roundtrip idDeflate (fun _ _ _ => rfl) (fun _ _ h => h)).2 _ (by decide)⟩

end SandboxLinks
